import Mathlib

/-!
Verification of the filter-repo-rs stream-rewriting core.

This file shallowly embeds the relevant pieces of the Rust sources
(`commit.rs`, `filechange.rs`, `limits.rs`, `tag.rs`, `pathutil.rs`,
`message.rs`) as executable Lean definitions over byte lists
(`List Nat`, each entry a byte value), and proves or refutes the
specification claims about them. Definitions keep the source names
where the Lean grammar permits.
-/

set_option autoImplicit false
set_option maxHeartbeats 1000000

namespace FRS

/-- Bytes of an ASCII string literal, as natural numbers. -/
def sBytes (s : String) : List Nat :=
  s.toList.map Char.toNat

/-- `l.startsWith pre` mirrors Rust's `slice::starts_with`. -/
def startsWithB (pre l : List Nat) : Bool :=
  l.take pre.length = pre

/-- Decimal ASCII digits of `n`, most significant first
(mirrors Rust's `format!` of an unsigned integer). -/
def natToDecBytes (n : Nat) : List Nat :=
  (Nat.toDigits 10 n).map Char.toNat

/-! ## Options (fields read by the embedded functions)

The `opts.rs` module is not part of the provided sources; the fields and
the `PruneMode` variants below are exactly those consumed by
`should_keep_commit`, `path_matches` and `should_keep` in the provided
sources (`crate::opts::PruneMode::{Never, Auto, Always}`,
`opts.no_ff`, `opts.prune_degenerate`, `opts.prune_empty`, `opts.paths`,
`opts.path_globs`, `opts.path_regexes`, `opts.invert_paths`). -/

inductive PruneMode where
  | never
  | auto
  | always
deriving DecidableEq, Repr

/-- Regex matching is delegated to the external `regex` crate; a configured
regex is embedded as its matching function on byte strings. -/
structure Options where
  paths : List (List Nat)
  path_globs : List (List Nat)
  path_regexes : List (List Nat → Bool)
  invert_paths : Bool
  no_ff : Bool
  prune_degenerate : PruneMode
  prune_empty : PruneMode

/-! ## commit.rs: keep/prune decision -/

/-- `should_keep_commit` from `commit.rs` (lines 403-446), translated
branch for branch. -/
def should_keep_commit (commit_has_changes : Bool)
    (first_parent_mark commit_mark : Option Nat) (parent_count : Nat)
    (was_merge is_degenerate : Bool) (opts : Options) : Bool :=
  if first_parent_mark.isNone || commit_mark.isNone then
    true
  else if commit_has_changes then
    true
  else if 2 ≤ parent_count then
    true
  else if was_merge && is_degenerate then
    if opts.no_ff then
      true
    else
      match opts.prune_degenerate with
      | .never => true
      | .auto => false
      | .always => false
  else
    match opts.prune_empty with
    | .never => true
    | .auto => false
    | .always => false

/-! ## commit.rs: alias table and aliasing on prune -/

/-- `resolve_canonical_mark`'s loop from `commit.rs` (lines 556-569).
The alias table (a `HashMap` in the source) is embedded as an
association list with unique keys; `List.lookup` plays `HashMap::get`.
The fuel `aliasMap.length + 1` is an upper bound on the number of loop
iterations: every iteration that continues pushes a previously unseen
mark that is a key of the table, so the visited-set break fires after at
most `aliasMap.length + 1` iterations. -/
def resolveGo (aliasMap : List (Nat × Nat)) :
    Nat → Nat → List Nat → Nat
  | 0, current, _ => current
  | fuel + 1, current, seen =>
    match aliasMap.lookup current with
    | none => current
    | some next =>
      if current ∈ seen then current
      else if next = current then current
      else resolveGo aliasMap fuel next (current :: seen)

/-- `resolve_canonical_mark` from `commit.rs` (lines 556-569). -/
def resolve_canonical_mark (aliasMap : List (Nat × Nat)) (mark : Nat) : Nat :=
  resolveGo aliasMap (aliasMap.length + 1) mark []

/-- `build_alias` from `commit.rs` (lines 449-451):
`format!("alias\nmark :{old}\nto :{canonical}\n\n")` as bytes. -/
def build_alias (old_mark first_parent_mark : Nat) : List Nat :=
  sBytes "alias\nmark :" ++ natToDecBytes old_mark ++
    sBytes "\nto :" ++ natToDecBytes first_parent_mark ++ sBytes "\n\n"

/-- The prune branch of `process_commit_line` (`commit.rs` lines 263-286):
on a pruned commit, decide whether an alias-table entry is recorded and an
alias stanza emitted. Returns the `(old_mark, canonical)` insertion and
the stanza bytes, or `none` when the commit is dropped silently. -/
def prune_alias_action (commit_mark first_parent_mark : Option Nat)
    (aliasMap : List (Nat × Nat)) (emitted_marks : List Nat) :
    Option ((Nat × Nat) × List Nat) :=
  match commit_mark, first_parent_mark with
  | some old_mark, some parent_mark =>
    let canonical := resolve_canonical_mark aliasMap parent_mark
    if canonical ∈ emitted_marks then
      some ((old_mark, canonical), build_alias old_mark canonical)
    else
      none
  | _, _ => none

/-! ## limits.rs and tag.rs: `data N` header parsing -/

/-- `MAX_DATA_BLOCK_SIZE` from `limits.rs` (500 MiB). -/
def MAX_DATA_BLOCK_SIZE : Nat := 500 * 1024 * 1024

/-- ASCII whitespace (the ASCII fragment of Rust's `str::trim`; the
headers at issue are pure ASCII). -/
def isAsciiWs (b : Nat) : Bool :=
  b = 9 || b = 10 || b = 11 || b = 12 || b = 13 || b = 32

/-- Both-ends trim of ASCII whitespace, modelling `str::trim` on the
ASCII inputs the `data` headers consist of. -/
def asciiTrim (l : List Nat) : List Nat :=
  ((l.dropWhile isAsciiWs).reverse.dropWhile isAsciiWs).reverse

/-- Rust's `str::parse::<usize>()`: an optional leading `+`, then one or
more ASCII decimal digits, rejecting values that overflow 64-bit
`usize`. -/
def rustParseUsize (l : List Nat) : Option Nat :=
  let digits := if l.take 1 = [43] then l.drop 1 else l
  if digits = [] then none
  else if digits.all (fun b => 48 ≤ b && b ≤ 57) then
    let v := digits.foldl (fun acc b => acc * 10 + (b - 48)) 0
    if v < 2 ^ 64 then some v else none
  else none

/-- `parse_data_size_header` from `limits.rs` (lines 7-26). `none` stands
for the `InvalidData` framing error (used both for a malformed header and
for a size beyond the ceiling). Bytes ≥ 0x80 make `from_utf8`-then-parse
fail for these headers and are rejected. -/
def parse_data_size_header (line : List Nat) : Option Nat :=
  if startsWithB (sBytes "data ") line then
    let size_bytes := line.drop 5
    if size_bytes.all (fun b => b < 128) then
      match rustParseUsize (asciiTrim size_bytes) with
      | none => none
      | some n => if MAX_DATA_BLOCK_SIZE < n then none else some n
    else none
  else none

/-- The inline `data` header parsing of `process_tag_block` from `tag.rs`
(lines 70-79): same UTF-8 + trim + `parse::<usize>` pipeline, but with no
`MAX_DATA_BLOCK_SIZE` ceiling; on success the code immediately allocates
an `n`-byte payload buffer. -/
def tag_parse_data_header (line : List Nat) : Option Nat :=
  if startsWithB (sBytes "data ") line then
    let size_bytes := line.drop 5
    if size_bytes.all (fun b => b < 128) then
      rustParseUsize (asciiTrim size_bytes)
    else none
  else none

/-! ## pathutil.rs: sanitization, C-style quoting, encode/decode -/

/-- `sanitize_fast_import_path_bytes` from `pathutil.rs` (lines 390-400):
ASCII control bytes `0x00..=0x1F` and `0x7F` become `'_'` (95). -/
def sanitize_fast_import_path_bytes (p : List Nat) : List Nat :=
  p.map fun b => if b ≤ 31 ∨ b = 127 then 95 else b

/-- `needs_c_style_quote` from `pathutil.rs` (lines 427-435). -/
def needs_c_style_quote (bytes : List Nat) : Bool :=
  bytes.any fun b => b ≤ 32 || 127 ≤ b || b = 34 || b = 92

/-- The per-byte encoding of `enquote_c_style_bytes` (`pathutil.rs`
lines 214-249): escape `"` `\` `\n` `\t` `\r`, 3-digit octal for the
remaining control and high bytes, the rest verbatim. -/
def encQuotedByte (b : Nat) : List Nat :=
  if b = 34 then [92, 34]
  else if b = 92 then [92, 92]
  else if b = 10 then [92, 110]
  else if b = 9 then [92, 116]
  else if b = 13 then [92, 114]
  else if b ≤ 31 ∨ 127 ≤ b then
    [92, b / 64 % 8 + 48, b / 8 % 8 + 48, b % 8 + 48]
  else [b]

/-- `enquote_c_style_bytes` from `pathutil.rs` (lines 214-249). -/
def enquote_c_style_bytes (bytes : List Nat) : List Nat :=
  34 :: (bytes.flatMap encQuotedByte ++ [34])

/-- After a `\` and one octal digit, how many further octal digits the
dequoting loop of `pathutil.rs` consumes (at most 2). -/
def octalMore : List Nat → Nat
  | [] => 0
  | d :: rest3 =>
    if 48 ≤ d ∧ d ≤ 55 then
      match rest3 with
      | [] => 1
      | e :: _ => if 48 ≤ e ∧ e ≤ 55 then 2 else 1
    else 0

/-- The value accumulated by the octal-escape loop of `pathutil.rs`
(`val = (val << 3) | digit` over the consumed digits). -/
def octalVal (c : Nat) : List Nat → Nat
  | [] => c - 48
  | d :: rest3 =>
    if 48 ≤ d ∧ d ≤ 55 then
      match rest3 with
      | [] => (c - 48) * 8 + (d - 48)
      | e :: _ =>
        if 48 ≤ e ∧ e ≤ 55 then ((c - 48) * 8 + (d - 48)) * 8 + (e - 48)
        else (c - 48) * 8 + (d - 48)
    else c - 48

/-- `dequote_c_style_bytes` from `pathutil.rs` (lines 167-211): undo
`\\ \" \n \t \r` and up-to-3-digit octal escapes (`val as u8` truncates
modulo 256); a `\` before an unknown byte yields that byte, a trailing
`\` yields itself. -/
def dequote_c_style_bytes : List Nat → List Nat
  | [] => []
  | b :: rest =>
    if b ≠ 92 then b :: dequote_c_style_bytes rest
    else
      match rest with
      | [] => [92]
      | c :: rest2 =>
        if c = 92 then 92 :: dequote_c_style_bytes rest2
        else if c = 34 then 34 :: dequote_c_style_bytes rest2
        else if c = 110 then 10 :: dequote_c_style_bytes rest2
        else if c = 116 then 9 :: dequote_c_style_bytes rest2
        else if c = 114 then 13 :: dequote_c_style_bytes rest2
        else if 48 ≤ c ∧ c ≤ 55 then
          octalVal c rest2 % 256 ::
            dequote_c_style_bytes (rest2.drop (octalMore rest2))
        else c :: dequote_c_style_bytes rest2
  termination_by l => l.length
  decreasing_by
    all_goals simp_wf
    all_goals omega

/-- `encode_path_for_fi` from `pathutil.rs` (lines 365-373). -/
def encode_path_for_fi (bytes : List Nat) : List Nat :=
  let safe := sanitize_fast_import_path_bytes bytes
  if needs_c_style_quote safe then enquote_c_style_bytes safe else safe

/-- `decode_fast_export_path_bytes` from `pathutil.rs` (lines 408-424). -/
def decode_fast_export_path_bytes (path : List Nat) : List Nat :=
  let trimmed := if path.getLast? = some 10 then path.dropLast else path
  if trimmed.head? = some 34 ∧ trimmed.getLast? = some 34 ∧
      2 ≤ trimmed.length then
    dequote_c_style_bytes ((trimmed.drop 1).dropLast)
  else if trimmed.head? = some 34 then
    dequote_c_style_bytes (trimmed.drop 1)
  else trimmed

/-- The `cfg(windows)` body of `sanitize_invalid_windows_path_bytes`
(`pathutil.rs` lines 129-158): map `< > : " | ? *` to `'_'`, then trim
trailing `'.'` and `' '` from the final path component. -/
def sanitize_invalid_windows_path_bytes (p : List Nat) : List Nat :=
  let out := p.map fun b =>
    if b = 60 ∨ b = 62 ∨ b = 58 ∨ b = 34 ∨ b = 124 ∨ b = 63 ∨ b = 42
    then 95 else b
  let comp := (out.reverse.takeWhile fun b => b ≠ 47).reverse
  let head := out.take (out.length - comp.length)
  head ++ ((comp.reverse.dropWhile fun b => b = 46 ∨ b = 32).reverse)

/-- The sanitization described by the claim for C6: control bytes to
`'_'`, then the platform-compat policy in `sanitize` mode (which is the
Windows sanitizer on Windows builds, and the identity elsewhere —
`apply_path_compat_policy` returns the path unchanged when
`cfg!(windows)` is false). -/
def claim_sanitize (windows : Bool) (p : List Nat) : List Nat :=
  if windows then
    sanitize_invalid_windows_path_bytes (sanitize_fast_import_path_bytes p)
  else
    sanitize_fast_import_path_bytes p

/-! ## commit.rs: parent-line finalization -/

/-- `ParentKind` from `commit.rs` (lines 94-98). -/
inductive ParentKind where
  | fromKw
  | mergeKw
deriving DecidableEq, Repr

/-- `ParentLine` from `commit.rs` (lines 76-92): the source stores the
byte span `[start, end)` of the line inside the commit buffer together
with the parsed mark and kind; here the span is embedded as the line's
bytes themselves. -/
structure ParentLine where
  bytes : List Nat
  mark : Option Nat
  kind : ParentKind

/-- `ParentReplacement` from `finalize_parent_lines` (`commit.rs`
lines 465-468). -/
inductive ParentReplacement where
  | canonical (canonical : Nat) (kind : ParentKind)
  | raw (bytes : List Nat)

/-- `rebuild_parent_line` from `commit.rs` (lines 549-554). -/
def rebuild_parent_line (kind : ParentKind) (mark : Nat) : List Nat :=
  match kind with
  | .fromKw => sBytes "from :" ++ natToDecBytes mark ++ [10]
  | .mergeKw => sBytes "merge :" ++ natToDecBytes mark ++ [10]

/-- First pass of `finalize_parent_lines` (`commit.rs` lines 470-504):
walk the parents accumulating the replacement for each line (`none` =
dropped), the set of canonical marks already kept (`seen`), the index
and mark of the first kept parent, and the kept count. -/
def finalizePass1 (emitted : List Nat) (amap : List (Nat × Nat)) :
    List ParentLine → Nat → List Nat → Option Nat → Option Nat → Nat →
    List (Option ParentReplacement) × Option Nat × Option Nat × Nat
  | [], _, _, fki, fkm, kc => ([], fki, fkm, kc)
  | parent :: rest, idx, seen, fki, fkm, kc =>
    match parent.mark with
    | some mark =>
      let canonical := resolve_canonical_mark amap mark
      if canonical ∉ emitted then
        let (reps, fki', fkm', kc') :=
          finalizePass1 emitted amap rest (idx + 1) seen fki fkm kc
        (none :: reps, fki', fkm', kc')
      else if canonical ∈ seen then
        let (reps, fki', fkm', kc') :=
          finalizePass1 emitted amap rest (idx + 1) seen fki fkm kc
        (none :: reps, fki', fkm', kc')
      else
        let fki2 := if fki.isNone then some idx else fki
        let fkm2 := if fki.isNone then some canonical else fkm
        let (reps, fki', fkm', kc') :=
          finalizePass1 emitted amap rest (idx + 1) (canonical :: seen)
            fki2 fkm2 (kc + 1)
        (some (.canonical canonical parent.kind) :: reps, fki', fkm', kc')
    | none =>
      let fki2 := if fki.isNone then some idx else fki
      let (reps, fki', fkm', kc') :=
        finalizePass1 emitted amap rest (idx + 1) seen fki2 fkm (kc + 1)
      (some (.raw parent.bytes) :: reps, fki', fkm', kc')

/-- Second pass of `finalize_parent_lines` (`commit.rs` lines 506-541):
emit each retained parent line, rewriting the first retained one to the
`from` keyword (a raw `merge <oid>` line has its keyword swapped). -/
def finalizePass2 (fki : Option Nat) :
    List (Option ParentReplacement) → Nat → List (List Nat)
  | [], _ => []
  | none :: rest, idx => finalizePass2 fki rest (idx + 1)
  | some (.canonical c k) :: rest, idx =>
    let effective_kind := if fki = some idx then ParentKind.fromKw else k
    rebuild_parent_line effective_kind c :: finalizePass2 fki rest (idx + 1)
  | some (.raw bytes) :: rest, idx =>
    let bytes' :=
      if fki = some idx ∧ startsWithB (sBytes "merge ") bytes then
        sBytes "from " ++ bytes.drop 6
      else bytes
    bytes' :: finalizePass2 fki rest (idx + 1)

/-- `finalize_parent_lines` from `commit.rs` (lines 453-547), returning
the retained parent lines in order, the new `first_parent_mark`, and the
kept count. -/
def finalize_parent_lines (parents : List ParentLine)
    (emitted : List Nat) (amap : List (Nat × Nat)) :
    List (List Nat) × Option Nat × Nat :=
  if parents.isEmpty then ([], none, 0)
  else
    let (reps, fki, fkm, kc) :=
      finalizePass1 emitted amap parents 0 [] none none 0
    (finalizePass2 fki reps 0, fkm, kc)

/-- The replacement list computed by the first pass, without the
index/mark/count bookkeeping (used to state the pass lemmas). -/
def repsOf (emitted : List Nat) (amap : List (Nat × Nat)) :
    List ParentLine → List Nat → List (Option ParentReplacement)
  | [], _ => []
  | p :: rest, seen =>
    match p.mark with
    | some mark =>
      let canonical := resolve_canonical_mark amap mark
      if canonical ∉ emitted then none :: repsOf emitted amap rest seen
      else if canonical ∈ seen then none :: repsOf emitted amap rest seen
      else
        some (.canonical canonical p.kind) ::
          repsOf emitted amap rest (canonical :: seen)
    | none => some (.raw p.bytes) :: repsOf emitted amap rest seen

/-- Specification-side rendering of the claim C2's retention rule: walk
the parents in order with the set of canonical marks already retained;
a parent with a mark is retained iff its canonical mark is emitted and
not yet seen; a raw parent is always retained. Each retained parent is
paired with its canonical mark (or `none` for raw). -/
def keptParents (emitted : List Nat) (amap : List (Nat × Nat)) :
    List ParentLine → List Nat → List (ParentLine × Option Nat)
  | [], _ => []
  | p :: rest, seen =>
    match p.mark with
    | some mark =>
      let c := resolve_canonical_mark amap mark
      if c ∈ emitted ∧ c ∉ seen then
        (p, some c) :: keptParents emitted amap rest (c :: seen)
      else
        keptParents emitted amap rest seen
    | none => (p, none) :: keptParents emitted amap rest seen

/-- Specification-side rendering of the claim C2's emission rule: the
first retained line is emitted with the `from` keyword (a raw `merge`
line has its keyword swapped); every later retained line keeps its kind
(raw lines verbatim). -/
def renderKept : List (ParentLine × Option Nat) → Bool → List (List Nat)
  | [], _ => []
  | (p, some c) :: rest, isFirst =>
    rebuild_parent_line (if isFirst then ParentKind.fromKw else p.kind) c ::
      renderKept rest false
  | (p, none) :: rest, isFirst =>
    (if isFirst ∧ startsWithB (sBytes "merge ") p.bytes then
      sBytes "from " ++ p.bytes.drop 6
    else p.bytes) :: renderKept rest false

/-- The canonical mark recorded as the new first parent: the canonical
mark of the first retained parent when that parent was given by mark. -/
def firstKeptCanonical (kl : List (ParentLine × Option Nat)) : Option Nat :=
  match kl with
  | (_, some c) :: _ => some c
  | _ => none

/-! ## pathutil.rs: byte-glob matching -/

/-- The recursive `match_from` helper of `glob_match_bytes` from
`pathutil.rs` (lines 438-496). The `'**'` branch computes `rest` by
skipping one `'/'` directly after the two stars, then tries `rest` at
every drop position of the text; the single-`'*'` branch tries every
drop position whose skipped prefix is free of `'/'` (the source loop
attempts position `i` before breaking on `t[i] == '/'`, so positions up
to and including the first slash are tried). `42`, `47`, `63` are
`'*'`, `'/'`, `'?'`. -/
def match_from : List Nat → List Nat → Bool
  | [], t => t.isEmpty
  | 42 :: 42 :: 47 :: p, t =>
    (List.range (t.length + 1)).any fun i => match_from p (t.drop i)
  | 42 :: 42 :: p, t =>
    (List.range (t.length + 1)).any fun i => match_from p (t.drop i)
  | 42 :: p, t =>
    (List.range (t.length + 1)).any fun i =>
      ((t.take i).all fun b => b ≠ 47) && match_from p (t.drop i)
  | 63 :: p, t =>
    match t with
    | [] => false
    | c :: t' => if c = 47 then false else match_from p t'
  | b :: p, t =>
    match t with
    | [] => false
    | c :: t' => if b = c then match_from p t' else false
  termination_by p _ => p.length

/-- `glob_match_bytes` from `pathutil.rs` (lines 438-496). -/
def glob_match_bytes (pat text : List Nat) : Bool :=
  match_from pat text

/-- Declarative glob semantics (the amended claim C8): matching is
anchored at both ends — the whole pattern must cover the whole path.
`*` consumes a run of non-`/` bytes, `**` consumes any run of bytes
(`/` included) with a `/` immediately following the two stars absorbed,
`?` consumes one non-`/` byte, and any other byte matches itself. The
side conditions on the next pattern byte mirror the tokenization of the
matcher: two adjacent stars always form `**`. -/
inductive GlobSpec : List Nat → List Nat → Prop where
  | nil : GlobSpec [] []
  | dstarSlash {p t : List Nat} (run : List Nat) (h : GlobSpec p t) :
      GlobSpec (42 :: 42 :: 47 :: p) (run ++ t)
  | dstar {p t : List Nat} (run : List Nat) (hp : p.head? ≠ some 47)
      (h : GlobSpec p t) : GlobSpec (42 :: 42 :: p) (run ++ t)
  | star {p t : List Nat} (run : List Nat) (hrun : ∀ b ∈ run, b ≠ 47)
      (hp : p.head? ≠ some 42) (h : GlobSpec p t) :
      GlobSpec (42 :: p) (run ++ t)
  | qmark {p t : List Nat} (c : Nat) (hc : c ≠ 47) (h : GlobSpec p t) :
      GlobSpec (63 :: p) (c :: t)
  | lit {p t : List Nat} (b : Nat) (hb : b ≠ 42) (hb2 : b ≠ 63)
      (h : GlobSpec p t) : GlobSpec (b :: p) (b :: t)

/-! ## filechange.rs: path predicates and the keep decision -/

/-- `path_matches` from `filechange.rs` (lines 143-154). -/
def path_matches (path : List Nat) (opts : Options) : Bool :=
  if !opts.paths.isEmpty &&
      (opts.paths.any fun pre => startsWithB pre path) then
    true
  else if !opts.path_globs.isEmpty &&
      (opts.path_globs.any fun g => glob_match_bytes g path) then
    true
  else if !opts.path_regexes.isEmpty &&
      (opts.path_regexes.any fun re => re path) then
    true
  else
    false

/-- `should_keep` from `filechange.rs` (lines 156-162). -/
def should_keep (pathsArg : List (List Nat)) (opts : Options) : Bool :=
  if opts.paths.isEmpty && opts.path_globs.isEmpty &&
      opts.path_regexes.isEmpty then
    true
  else
    Bool.xor opts.invert_paths (pathsArg.any fun p => path_matches p opts)

/-- A parsed file-change directive (`filechange.rs` lines 6-25). -/
inductive FileChange where
  | deleteAll
  | modify (mode id path : List Nat)
  | delete (path : List Nat)
  | copy (src dst : List Nat)
  | rename (src dst : List Nat)

/-- The keep decision of `handle_file_change_line` from `filechange.rs`
(lines 211-218): which paths of the parsed directive are fed to
`should_keep`. -/
def file_change_keep (fc : FileChange) (opts : Options) : Bool :=
  match fc with
  | .deleteAll => true
  | .modify _ _ path => should_keep [path] opts
  | .delete path => should_keep [path] opts
  | .copy src dst => should_keep [src, dst] opts
  | .rename src dst => should_keep [src, dst] opts

/-! ## message.rs: ShortHashMapper -/

/-- `MIN_SHORT_HASH_LEN` from `message.rs`. -/
def MIN_SHORT_HASH_LEN : Nat := 7

/-- `NULL_OID` from `message.rs`. -/
def NULL_OID : List Nat := sBytes "0000000000000000000000000000000000000000"

/-- `u8::to_ascii_lowercase` over a byte string. -/
def lowerB (l : List Nat) : List Nat :=
  l.map fun b => if 65 ≤ b ∧ b ≤ 90 then b + 32 else b

/-- `HashMap::insert`: replace the value under an existing key, else
append the binding (embedding the map as an association list with
unique keys). -/
def mapInsert (k : List Nat) (v : Option (List Nat))
    (m : List (List Nat × Option (List Nat))) :
    List (List Nat × Option (List Nat)) :=
  if m.any fun p => p.1 = k then
    m.map fun p => if p.1 = k then (k, v) else p
  else m ++ [(k, v)]

/-- `HashMap::get` on the association list. -/
def mapGet (m : List (List Nat × Option (List Nat))) (k : List Nat) :
    Option (Option (List Nat)) :=
  (m.find? fun p => p.1 = k).map fun p => p.2

/-- `HashMap::entry(k).or_default().push(old)` for the prefix buckets. -/
def bucketPush (k old : List Nat) (m : List (List Nat × List (List Nat))) :
    List (List Nat × List (List Nat)) :=
  if m.any fun p => p.1 = k then
    m.map fun p => if p.1 = k then (p.1, p.2 ++ [old]) else p
  else m ++ [(k, [old])]

/-- Bucket lookup (`HashMap::get` on `prefix_index`). -/
def bucketGet (m : List (List Nat × List (List Nat))) (k : List Nat) :
    Option (List (List Nat)) :=
  (m.find? fun p => p.1 = k).map fun p => p.2

/-- The state loaded by `ShortHashMapper::from_debug_dir` (`message.rs`
lines 134-209): the full-oid table and the 7-byte-keyed bucket index.
The `RefCell` cache is a memo of `translate` over the same state and is
semantically transparent, so it is not modelled. -/
structure ShortHashState where
  lookupTbl : List (List Nat × Option (List Nat))
  pfxIndex : List (List Nat × List (List Nat))

/-- Strip trailing `\n`/`\r` bytes (the `while … pop()` loop of the
loader). -/
def stripCrLf (l : List Nat) : List Nat :=
  (l.reverse.dropWhile fun b => b = 10 ∨ b = 13).reverse

/-- One iteration of the commit-map loading loop of
`ShortHashMapper::from_debug_dir` (`message.rs` lines 154-190):
trim the line, `splitn(2, ' ')` into old/new (skipping the line when
either part is empty), lowercase, record the null oid as `none`, push
the old oid onto its 7-byte bucket and insert it into the full table. -/
def shmLoadLine (st : ShortHashState) (rawLine : List Nat) :
    ShortHashState :=
  let line := stripCrLf rawLine
  if line.isEmpty then st
  else
    let old := line.takeWhile fun b => b ≠ 32
    if old.isEmpty then st
    else if old.length = line.length then st
    else
      let new := line.drop (old.length + 1)
      if new.isEmpty then st
      else
        let old_norm := lowerB old
        let new_entry := if new = NULL_OID then none else some (lowerB new)
        { pfxIndex :=
            bucketPush (old_norm.take MIN_SHORT_HASH_LEN) old_norm
              st.pfxIndex,
          lookupTbl := mapInsert old_norm new_entry st.lookupTbl }

/-- The full commit-map load (`from_debug_dir`) over the file's lines. -/
def shmLoad (lines : List (List Nat)) : ShortHashState :=
  lines.foldl shmLoadLine ⟨[], []⟩

/-- `ShortHashMapper::lookup_prefix` from `message.rs` (lines 255-272):
find the 7-byte bucket, filter it to the oids extending the candidate,
demand exactly one occurrence, and return the same-length slice of the
mapped oid (`none` for an absent or null target). The source takes the
first filtered element and fails if a second exists, which is the same
as demanding a one-element filtered list. -/
def lookupPfx (st : ShortHashState) (short : List Nat) (orig_len : Nat) :
    Option (List Nat) :=
  if short.length < MIN_SHORT_HASH_LEN then none
  else
    match bucketGet st.pfxIndex (short.take MIN_SHORT_HASH_LEN) with
    | none => none
    | some entries =>
      match entries.filter fun full =>
          orig_len ≤ full.length ∧ full.take orig_len = short with
      | [full_old] =>
        match mapGet st.lookupTbl full_old with
        | some (some new_full) => some (new_full.take orig_len)
        | _ => none
      | _ => none

/-- `ShortHashMapper::translate` from `message.rs` (lines 221-237). -/
def shmTranslate (st : ShortHashState) (candidate : List Nat) :
    Option (List Nat) :=
  if candidate.length < MIN_SHORT_HASH_LEN then none
  else
    let key := lowerB candidate
    if candidate.length = 40 then
      match mapGet st.lookupTbl key with
      | some (some v) => some v
      | _ => none
    else lookupPfx st key candidate.length

/-- Hex digit bytes matched by `[0-9a-f]` under `(?i)`. -/
def isHexB (b : Nat) : Bool :=
  (48 ≤ b && b ≤ 57) || (97 ≤ b && b ≤ 102) || (65 ≤ b && b ≤ 70)

/-- ASCII word bytes for the byte-regex `\b` boundary. -/
def isWordB (b : Nat) : Bool :=
  (48 ≤ b && b ≤ 57) || (65 ≤ b && b ≤ 90) || (97 ≤ b && b ≤ 122) ||
    b = 95

/-- Modelled from the spec and the `regex` crate's documented semantics
(the engine itself is an external dependency): the scan of
`(?i)\b[0-9a-f]{7,40}\b` used by `ShortHashMapper::rewrite`
(`message.rs` lines 211-219). At a position preceded by a non-word byte
(or the start), a maximal hex run of length 7..=40 whose following byte
is non-word (or the end) is a match; the greedy quantifier bounded by
the trailing `\b` can match nothing else, since every interior position
of a hex run sits between two word bytes. Each match is passed through
`translate`, keeping the original bytes when it returns `none`.
After a match the scan resumes after the run: since `isHexB b` holds in
that branch, the run starts with `b` and `t.drop (run.length - 1)` is
the text after the run. Every step consumes at least one byte, so fuel
equal to the byte count suffices. -/
def shmGo (st : ShortHashState) : Nat → Option Nat → List Nat → List Nat
  | _, _, [] => []
  | 0, _, l => l
  | fuel + 1, prev, b :: t =>
    let boundaryOk :=
      match prev with
      | none => true
      | some pb => !isWordB pb
    if isHexB b && boundaryOk then
      let run := (b :: t).takeWhile isHexB
      let len := run.length
      let restAfter := (b :: t).drop len
      let endOk : Bool :=
        match restAfter.head? with
        | none => true
        | some nb => !isWordB nb
      if 7 ≤ len ∧ len ≤ 40 ∧ endOk = true then
        (match shmTranslate st run with
         | some r => r
         | none => run) ++
          shmGo st fuel run.getLast? (t.drop (run.length - 1))
      else b :: shmGo st fuel (some b) t
    else b :: shmGo st fuel (some b) t

/-- `ShortHashMapper::rewrite` from `message.rs` (lines 211-219). -/
def shmRewrite (st : ShortHashState) (data : List Nat) : List Nat :=
  shmGo st data.length none data

/-! ## message.rs: literal multi-pattern replacement (whole-buffer and
streaming) -/

/-- `occursAt p t s`: pattern `p` occurs in `t` at start position `s`. -/
def occursAt (p t : List Nat) (s : Nat) : Bool :=
  (t.drop s).take p.length = p

/-- The candidates ending at text position `e`, listed in pattern
order: `(start, pattern index)` for every pattern occurring with end
exactly `e`. -/
def candsAtEnd (pats : List (List Nat × List Nat)) (t : List Nat)
    (e : Nat) : List (Nat × Nat) :=
  pats.enum.filterMap fun ji =>
    if ji.2.1.length ≤ e ∧ occursAt ji.2.1 t (e - ji.2.1.length) then
      some (e - ji.2.1.length, ji.1)
    else none

/-- Among candidates with the same end, the automaton reports the
deepest state's match first: minimal start (longest pattern), ties by
pattern order. -/
def pickMinStart (l : List (Nat × Nat)) : Option (Nat × Nat) :=
  l.foldl
    (fun acc c =>
      match acc with
      | none => some c
      | some a => if c.1 < a.1 then some c else some a)
    none

/-- Scan end positions `e, e+1, …` (`fuel` positions) for the first end
with a candidate. -/
def acNextGo (pats : List (List Nat × List Nat)) (t : List Nat) :
    Nat → Nat → Option (Nat × Nat)
  | 0, _ => none
  | fuel + 1, e =>
    match pickMinStart (candsAtEnd pats t e) with
    | some m => some m
    | none => acNextGo pats t fuel (e + 1)

/-- Modelled from the spec and the `aho-corasick` crate's documented
standard (leftmost, earliest-ending) match semantics: the next match of
the pattern set in `t` — smallest end position, ties broken towards the
longest pattern and then pattern order. -/
def acNextMatch (pats : List (List Nat × List Nat)) (t : List Nat) :
    Option (Nat × Nat) :=
  acNextGo pats t (t.length + 1) 0

/-- Non-overlapping replacement driven by `acNextMatch` (the
`find_iter` loop of `apply_ac_replacements`, `message.rs` lines
108-127): emit up to the match, emit the replacement of the matched
pattern, continue after the match end. The fuel (one byte consumed per
match, patterns being non-empty) makes the recursion total. -/
def acReplaceGo (pats : List (List Nat × List Nat)) :
    Nat → List Nat → List Nat
  | 0, t => t
  | fuel + 1, t =>
    match acNextMatch pats t with
    | none => t
    | some (s, j) =>
      let pr := pats.getD j ([], [])
      t.take s ++ pr.2 ++ acReplaceGo pats fuel (t.drop (s + pr.1.length))

/-- Whole-buffer multi-pattern replacement over a fully materialized
payload. -/
def acReplaceAll (pats : List (List Nat × List Nat)) (t : List Nat) :
    List Nat :=
  acReplaceGo pats (t.length + 1) t

/-- `MessageReplacer::apply` in the automaton case (`message.rs` lines
65-76 and 108-127): a first `find` returning nothing short-circuits to
the unchanged payload (which the replacement loop would also produce). -/
def mrApply (pats : List (List Nat × List Nat)) (data : List Nat) :
    List Nat :=
  match acNextMatch pats data with
  | none => data
  | some _ => acReplaceAll pats data

/-- Drain every visible match from a buffer: the emitted output and the
remaining (matchless) tail. -/
def acDrainGo (pats : List (List Nat × List Nat)) :
    Nat → List Nat → List Nat × List Nat
  | 0, t => ([], t)
  | fuel + 1, t =>
    match acNextMatch pats t with
    | none => ([], t)
    | some (s, j) =>
      let pr := pats.getD j ([], [])
      let (o, r) := acDrainGo pats fuel (t.drop (s + pr.1.length))
      (t.take s ++ pr.2 ++ o, r)

/-- Drain with sufficient fuel. -/
def acDrain (pats : List (List Nat × List Nat)) (t : List Nat) :
    List Nat × List Nat :=
  acDrainGo pats (t.length + 1) t

/-- The longest configured pattern. -/
def maxPatLen (pats : List (List Nat × List Nat)) : Nat :=
  pats.foldl (fun m pr => max m pr.1.length) 0

/-- Modelled from the spec (the streaming driver lives in the external
`aho-corasick` crate behind `try_stream_replace_all_with`,
`message.rs` lines 82-106): one chunk step of streaming replacement.
The pending look-behind is appended with the chunk, every match visible
in the buffer is replaced and emitted, and of the matchless tail all but
the last `maxPatLen - 1` bytes are flushed — enough look-behind to cover
any match straddling the chunk boundary. -/
def streamStep (pats : List (List Nat × List Nat))
    (st : List Nat × List Nat) (chunk : List Nat) : List Nat × List Nat :=
  let buf := st.2 ++ chunk
  let (o, r) := acDrain pats buf
  let keep := min r.length (maxPatLen pats - 1)
  (st.1 ++ o ++ r.take (r.length - keep), r.drop (r.length - keep))

/-- Modelled from the spec: `MessageReplacer::apply_streaming` — the
chunked payload is pushed through the automaton into the writer,
emitting replacements as matches complete; at end of input the pending
look-behind is flushed. -/
def mrApplyStreaming (pats : List (List Nat × List Nat))
    (chunks : List (List Nat)) : List Nat :=
  let st := chunks.foldl (streamStep pats) ([], [])
  st.1 ++ st.2

/-! ## commit.rs: mailmap identity rewriting -/

/-- A UTF-8 continuation byte. -/
def contB (b : Nat) : Bool := 128 ≤ b && b ≤ 191

/-- Fuel-driven UTF-8 scanner; every step consumes at least one byte,
so fuel equal to the byte count suffices. -/
def utf8Go : Nat → List Nat → Bool
  | _, [] => true
  | 0, _ :: _ => false
  | fuel + 1, b :: rest =>
    if b < 128 then utf8Go fuel rest
    else if 194 ≤ b && b ≤ 223 then
      match rest with
      | c :: r => contB c && utf8Go fuel r
      | [] => false
    else if b = 224 then
      match rest with
      | c :: d :: r => (160 ≤ c && c ≤ 191) && contB d && utf8Go fuel r
      | _ => false
    else if (225 ≤ b && b ≤ 236) || b = 238 || b = 239 then
      match rest with
      | c :: d :: r => contB c && contB d && utf8Go fuel r
      | _ => false
    else if b = 237 then
      match rest with
      | c :: d :: r => (128 ≤ c && c ≤ 159) && contB d && utf8Go fuel r
      | _ => false
    else if b = 240 then
      match rest with
      | c :: d :: e :: r =>
        (144 ≤ c && c ≤ 191) && contB d && contB e && utf8Go fuel r
      | _ => false
    else if 241 ≤ b && b ≤ 243 then
      match rest with
      | c :: d :: e :: r => contB c && contB d && contB e && utf8Go fuel r
      | _ => false
    else if b = 244 then
      match rest with
      | c :: d :: e :: r =>
        (128 ≤ c && c ≤ 143) && contB d && contB e && utf8Go fuel r
      | _ => false
    else false

/-- UTF-8 validity of a byte string (`std::str::from_utf8` succeeding). -/
def utf8Valid (l : List Nat) : Bool :=
  utf8Go l.length l

/-- Trailing ASCII-whitespace trim (the ASCII fragment of Rust's
`str::trim_end`; the identity lines at issue use ASCII spacing). -/
def trimEndWs (l : List Nat) : List Nat :=
  (l.reverse.dropWhile isAsciiWs).reverse

/-- One loaded mailmap rule (`MailmapRewriter` fields, `commit.rs` lines
652-657 and 666-717): `new_name`/`new_email` empty means "keep the old
one"; `old_email` is matched exactly (the source compiles it to the
anchored regex `^escaped$`). -/
structure MailmapRule where
  new_name : List Nat
  new_email : List Nat
  old_email : List Nat

/-- Index of the first occurrence of byte `b`, mirroring `str::find`. -/
def findByte (b : Nat) (l : List Nat) : Option Nat :=
  l.findIdx? fun x => x = b

/-- `MailmapRewriter::rewrite_line` from `commit.rs` (lines 719-777):
bail out on invalid UTF-8; recognize only `author ` and `committer `
headers; parse `Name <email>`; substitute name and/or email from the
first rule whose `old_email` matches. -/
def mailmap_rewrite_line (rules : List MailmapRule) (line : List Nat) :
    List Nat :=
  if !utf8Valid line then line
  else
    let header_len :=
      if startsWithB (sBytes "author ") line then some 7
      else if startsWithB (sBytes "committer ") line then some 10
      else none
    match header_len with
    | none => line
    | some hl =>
      let identity := line.drop hl
      match findByte 60 identity with
      | none => line
      | some email_start_rel =>
        match findByte 62 (identity.drop email_start_rel) with
        | none => line
        | some close_pos_rel =>
          let close_pos := email_start_rel + close_pos_rel
          let old_name := trimEndWs (identity.take email_start_rel)
          let old_email :=
            (identity.take close_pos).drop (email_start_rel + 1)
          let suffix := identity.drop (close_pos + 1)
          match rules.find? (fun r => r.old_email = old_email) with
          | none => line
          | some r =>
            let final_name :=
              if r.new_name.isEmpty then old_name else r.new_name
            let final_email :=
              if r.new_email.isEmpty then old_email else r.new_email
            line.take hl ++
              (if final_name.isEmpty then [] else final_name ++ [32]) ++
              [60] ++ final_email ++ [62] ++ suffix

/-- The path-match relation exactly as claim C4 states it: a path
matches if it starts with a configured literal prefix, or a configured
glob matches, or a configured regex matches; with no predicates
configured at all, every path matches. -/
def claim_matched (path : List Nat) (opts : Options) : Bool :=
  (opts.paths.any fun pre => startsWithB pre path) ||
  (opts.path_globs.any fun g => glob_match_bytes g path) ||
  (opts.path_regexes.any fun re => re path) ||
  (opts.paths.isEmpty && opts.path_globs.isEmpty &&
    opts.path_regexes.isEmpty)

/-- The keep decision exactly as claim C4 states it: kept iff
`invert_paths` XOR matched, with `M`/`D` judged on their single path,
`C`/`R` on either path, and `deleteall` always kept. -/
def claim_keep (fc : FileChange) (opts : Options) : Bool :=
  match fc with
  | .deleteAll => true
  | .modify _ _ p => Bool.xor opts.invert_paths (claim_matched p opts)
  | .delete p => Bool.xor opts.invert_paths (claim_matched p opts)
  | .copy s d =>
    Bool.xor opts.invert_paths (claim_matched s opts || claim_matched d opts)
  | .rename s d =>
    Bool.xor opts.invert_paths (claim_matched s opts || claim_matched d opts)

/-! ## message.rs: spec-side characterization of the short-hash mapper -/

/-- The parse of one commit-map line, as performed by the loading loop
of `ShortHashMapper::from_debug_dir`: trim, split at the first space,
skip the line when either half is empty; the old oid is lowercased, the
new oid kept raw (the loader lowercases it on storage). -/
def shmPairOfLine (rawLine : List Nat) : Option (List Nat × List Nat) :=
  let line := stripCrLf rawLine
  if line.isEmpty then none
  else
    let old := line.takeWhile fun b => b ≠ 32
    if old.isEmpty then none
    else if old.length = line.length then none
    else
      let new := line.drop (old.length + 1)
      if new.isEmpty then none
      else some (lowerB old, new)

/-- The (old, new) pairs of a commit-map file, in file order. -/
def shmPairs (lines : List (List Nat)) : List (List Nat × List Nat) :=
  lines.filterMap shmPairOfLine

/-- The table entry stored for a new oid: `none` for the null (pruned)
oid, the lowercased oid otherwise. -/
def mkShmEntry (n : List Nat) : Option (List Nat) :=
  if n = NULL_OID then none else some (lowerB n)

/-- The state update of one successfully parsed commit-map pair. -/
def applyShmPair (st : ShortHashState) (pr : List Nat × List Nat) :
    ShortHashState :=
  { lookupTbl := mapInsert pr.1 (mkShmEntry pr.2) st.lookupTbl,
    pfxIndex := bucketPush (pr.1.take MIN_SHORT_HASH_LEN) pr.1 st.pfxIndex }

/-- Modelled from the spec: claim C9's resolution rule, which counts
distinct old oids - a run resolves when it is a prefix of exactly one
remapped old oid, and is replaced by the same-length prefix of the
corresponding new oid unless that target is the null oid. -/
def claim_resolve_distinct (lines : List (List Nat)) (run : List Nat) :
    Option (List Nat) :=
  let key := lowerB run
  let pairs := shmPairs lines
  match ((pairs.filter fun pr => startsWithB key pr.1).map Prod.fst).dedup
    with
  | [o] =>
    match (pairs.filter fun pr => pr.1 = o).getLast? with
    | some pr =>
      if pr.2 = NULL_OID then none
      else some ((lowerB pr.2).take run.length)
    | none => none
  | _ => none

/-- The amended resolution rule: candidates are counted per commit-map
line (a duplicated line makes all proper prefixes of its old oid
ambiguous), and a full 40-hex run bypasses the ambiguity check, being
resolved by exact lookup with the last binding of the old oid winning. -/
def claim_resolve_occ (lines : List (List Nat)) (run : List Nat) :
    Option (List Nat) :=
  let key := lowerB run
  let pairs := shmPairs lines
  if run.length = 40 then
    match (pairs.filter fun pr => pr.1 = key).getLast? with
    | some pr =>
      if pr.2 = NULL_OID then none else some (lowerB pr.2)
    | none => none
  else
    match pairs.filter fun pr => startsWithB key pr.1 with
    | [pr] =>
      if pr.2 = NULL_OID then none
      else some ((lowerB pr.2).take run.length)
    | _ => none

/-- The hex-run scanner of `ShortHashMapper::rewrite` abstracted over
the per-run resolution function (`shmGo` is this scanner at
`shmTranslate st`). -/
def specShmGo (resolve : List Nat → Option (List Nat)) :
    Nat → Option Nat → List Nat → List Nat
  | _, _, [] => []
  | 0, _, l => l
  | fuel + 1, prev, b :: t =>
    let boundaryOk :=
      match prev with
      | none => true
      | some pb => !isWordB pb
    if isHexB b && boundaryOk then
      let run := (b :: t).takeWhile isHexB
      let len := run.length
      let restAfter := (b :: t).drop len
      let endOk : Bool :=
        match restAfter.head? with
        | none => true
        | some nb => !isWordB nb
      if 7 ≤ len ∧ len ≤ 40 ∧ endOk = true then
        (match resolve run with
         | some r => r
         | none => run) ++
          specShmGo resolve fuel run.getLast? (t.drop (run.length - 1))
      else b :: specShmGo resolve fuel (some b) t
    else b :: specShmGo resolve fuel (some b) t

/-- The message rewrite induced by a resolution function. -/
def spec_shm_rewrite (resolve : List Nat → Option (List Nat))
    (data : List Nat) : List Nat :=
  specShmGo resolve data.length none data

/-- The accumulator step of `pickMinStart`, named for the proofs. -/
def pickStep (acc : Option (Nat × Nat)) (c : Nat × Nat) :
    Option (Nat × Nat) :=
  match acc with
  | none => some c
  | some a => if c.1 < a.1 then some c else some a

/-! # Theorems -/

/-- C1: at the commit terminator, after parent finalization (so with
`is_degenerate` computed as `was_merge && kept_parents < 2`), the commit
is kept iff it has no first-parent mark or no own mark, or a file change
survived, or at least 2 parents were retained, or it is a degenerate
merge under `--no-ff` or `prune-degenerate = never`, or a changeless
non-merge under `prune-empty = never`; it is pruned exactly for a
degenerate merge with `prune-degenerate ∈ {auto, always}` and `--no-ff`
unset, and for a changeless non-merge with
`prune-empty ∈ {auto, always}`. -/
theorem c1_keep_prune_characterization
    (changes : Bool) (fpm cm : Option Nat) (pc : Nat) (wasMerge : Bool)
    (opts : Options) :
    (should_keep_commit changes fpm cm pc wasMerge
        (wasMerge && decide (pc < 2)) opts = true ↔
      (fpm = none ∨ cm = none) ∨ changes = true ∨ 2 ≤ pc ∨
      (wasMerge = true ∧ pc < 2 ∧
        (opts.no_ff = true ∨ opts.prune_degenerate = PruneMode.never)) ∨
      (wasMerge = false ∧ changes = false ∧
        opts.prune_empty = PruneMode.never))
    ∧
    (should_keep_commit changes fpm cm pc wasMerge
        (wasMerge && decide (pc < 2)) opts = false ↔
      (fpm ≠ none ∧ cm ≠ none ∧ changes = false ∧ pc < 2 ∧
        ((wasMerge = true ∧ opts.no_ff = false ∧
           (opts.prune_degenerate = PruneMode.auto ∨
             opts.prune_degenerate = PruneMode.always)) ∨
         (wasMerge = false ∧
           (opts.prune_empty = PruneMode.auto ∨
             opts.prune_empty = PruneMode.always))))) := by
  rcases opts with ⟨p, g, r, ip, noff, pd, pe⟩
  rcases fpm with _ | fp <;> rcases cm with _ | c <;>
    cases changes <;> cases wasMerge <;> cases noff <;> cases pd <;>
    cases pe <;> by_cases h : pc < 2 <;>
    simp_all [should_keep_commit]

/-- C3: on a pruned commit, when both the commit's own mark and its
(finalized) first-parent mark are known: if the canonical form of the
parent mark is among the emitted marks, the alias table gains
`own_mark → canonical` and the stanza `alias\nmark :own\nto :canonical\n\n`
is emitted at this point of the stream; otherwise nothing is recorded or
emitted (the commit is dropped silently), and likewise when either mark
is unknown. -/
theorem c3_prune_alias_characterization (cm fpm : Option Nat)
    (amap : List (Nat × Nat)) (em : List Nat) :
    (∀ old parent, cm = some old → fpm = some parent →
      (resolve_canonical_mark amap parent ∈ em →
        prune_alias_action cm fpm amap em =
          some ((old, resolve_canonical_mark amap parent),
            build_alias old (resolve_canonical_mark amap parent))) ∧
      (resolve_canonical_mark amap parent ∉ em →
        prune_alias_action cm fpm amap em = none)) ∧
    ((cm = none ∨ fpm = none) → prune_alias_action cm fpm amap em = none) := by
  constructor
  · rintro old parent rfl rfl
    constructor <;> intro h <;> simp [prune_alias_action, h]
  · rintro (rfl | rfl)
    · rfl
    · rcases cm with _ | o <;> rfl

/-- Witness for C3 at a concrete pruned commit: own mark 5, first
parent 3, empty alias table, mark 3 already emitted. -/
theorem c3_witness :
    prune_alias_action (some 5) (some 3) [] [3] =
      some ((5, 3), build_alias 5 3) :=
  ((c3_prune_alias_characterization (some 5) (some 3) [] [3]).1 5 3 rfl
    rfl).1 (by decide)

/-- C5 (the code-side fact): `parse_data_size_header` — used for blob
payloads and commit messages — rejects a `data` header one byte over
the 500 MiB ceiling, but the inline header parsing of
`process_tag_block` (annotated-tag messages) accepts the same header
with no ceiling check, after which the source allocates the payload
buffer of that size. -/
theorem c5_tag_data_header_misses_ceiling :
    parse_data_size_header (sBytes "data 524288001\n") = none ∧
    tag_parse_data_header (sBytes "data 524288001\n") = some 524288001 ∧
    MAX_DATA_BLOCK_SIZE < 524288001 ∧
    parse_data_size_header (sBytes "data 524288000\n") = some 524288000 := by
  exact ⟨by decide, by decide, by decide, by decide⟩

/-- C10 counterexample: a `tagger` identity line whose email matches a
configured mailmap rule is passed through unchanged, while the very same
rule does rewrite the corresponding `author` line — so tagger lines are
not rewritten "exactly as author and committer lines" as the claim
states (the rewriter recognizes only the `author ` and `committer `
keywords). -/
theorem c10_counterexample :
    mailmap_rewrite_line
        [⟨sBytes "New Name", sBytes "new@example.com",
          sBytes "old@example.com"⟩]
        (sBytes "tagger Old Name <old@example.com> 1700000000 +0800\n") =
      sBytes "tagger Old Name <old@example.com> 1700000000 +0800\n" ∧
    mailmap_rewrite_line
        [⟨sBytes "New Name", sBytes "new@example.com",
          sBytes "old@example.com"⟩]
        (sBytes "author Old Name <old@example.com> 1700000000 +0800\n") =
      sBytes "author New Name <new@example.com> 1700000000 +0800\n" ∧
    sBytes "tagger Old Name <old@example.com> 1700000000 +0800\n" ≠
      sBytes "tagger New Name <new@example.com> 1700000000 +0800\n" := by
  exact ⟨by decide, by decide, by decide⟩

/-- C10 amended: the mailmap rewriter substitutes name and/or email only
on `author` and `committer` identity lines; every other line — tagger
identity lines included — is returned unchanged, whatever the rules. -/
theorem c10_amended_only_author_committer (rules : List MailmapRule)
    (line : List Nat)
    (h1 : startsWithB (sBytes "author ") line = false)
    (h2 : startsWithB (sBytes "committer ") line = false) :
    mailmap_rewrite_line rules line = line := by
  unfold mailmap_rewrite_line
  simp [h1, h2]

/-- Witness for the amended C10 at the concrete tagger line. -/
theorem c10_amended_witness :
    mailmap_rewrite_line
        [⟨sBytes "New Name", sBytes "new@example.com",
          sBytes "old@example.com"⟩]
        (sBytes "tagger Old Name <old@example.com> 1700000000 +0800\n") =
      sBytes "tagger Old Name <old@example.com> 1700000000 +0800\n" :=
  c10_amended_only_author_committer _ _ (by decide) (by decide)

/-- C4 counterexample: with no path predicates configured and
`invert_paths` set, `should_keep` returns `true` before ever applying
the XOR, so a `D` directive is kept although the claim's
"kept iff invert_paths XOR matched" (with every path matching when no
predicates are configured) demands it be dropped. -/
theorem c4_counterexample :
    file_change_keep (FileChange.delete (sBytes "a"))
        ⟨[], [], [], true, false, PruneMode.never, PruneMode.never⟩ =
      true ∧
    claim_keep (FileChange.delete (sBytes "a"))
        ⟨[], [], [], true, false, PruneMode.never, PruneMode.never⟩ =
      false := by
  exact ⟨rfl, rfl⟩

/-- C4 amended: when no predicates are configured at all the directive
is always kept, `invert_paths` notwithstanding; otherwise the decision
is exactly the claimed one — kept iff `invert_paths` XOR matched, with
`M`/`D` judged on their single path, `C`/`R` on either src or dst, and
`deleteall` always kept. -/
theorem c4_amended_keep_decision (fc : FileChange) (opts : Options) :
    file_change_keep fc opts =
      if opts.paths.isEmpty && opts.path_globs.isEmpty &&
          opts.path_regexes.isEmpty then
        true
      else claim_keep fc opts := by
  have hguard : ∀ {α : Type} (l : List α) (f : α → Bool),
      (!l.isEmpty && l.any f) = l.any f := by
    intro α l f
    cases l <;> simp
  have hpm : ∀ p, path_matches p opts =
      ((opts.paths.any fun pre => startsWithB pre p) ||
       (opts.path_globs.any fun g => glob_match_bytes g p) ||
       (opts.path_regexes.any fun re => re p)) := by
    intro p
    simp only [path_matches, hguard]
    split_ifs with h1 h2 h3 <;> simp_all
  by_cases hE : (opts.paths.isEmpty && opts.path_globs.isEmpty &&
      opts.path_regexes.isEmpty) = true
  · cases fc <;> simp [file_change_keep, should_keep, claim_keep, hE]
  · rw [Bool.not_eq_true] at hE
    cases fc <;>
      simp [file_change_keep, should_keep, claim_keep, claim_matched,
        hE, hpm, Bool.or_assoc]

/-! ### C6: path quoting round-trip -/

/-- Dequoting a three-digit octal escape recovers the value modulo 256
and continues after the three digits. -/
theorem dequote_octal (c d e : Nat) (t : List Nat)
    (hc : 48 ≤ c ∧ c ≤ 55) (hd : 48 ≤ d ∧ d ≤ 55) (he : 48 ≤ e ∧ e ≤ 55) :
    dequote_c_style_bytes (92 :: c :: d :: e :: t) =
      (((c - 48) * 8 + (d - 48)) * 8 + (e - 48)) % 256 ::
        dequote_c_style_bytes t := by
  have h92 : ¬(c = 92) := by omega
  have h34 : ¬(c = 34) := by omega
  have h110 : ¬(c = 110) := by omega
  have h116 : ¬(c = 116) := by omega
  have h114 : ¬(c = 114) := by omega
  simp only [dequote_c_style_bytes, octalMore, octalVal]
  simp [h92, h34, h110, h116, h114, hc, hd, he]

/-- Dequoting the encoding of one byte yields that byte back, leaving
the remainder untouched. -/
theorem dequote_encQuotedByte (b : Nat) (hb : b < 256) (t : List Nat) :
    dequote_c_style_bytes (encQuotedByte b ++ t) =
      b :: dequote_c_style_bytes t := by
  by_cases h34 : b = 34
  · subst h34; simp [encQuotedByte, dequote_c_style_bytes]
  by_cases h92 : b = 92
  · subst h92; simp [encQuotedByte, dequote_c_style_bytes]
  by_cases h10 : b = 10
  · subst h10; simp [encQuotedByte, dequote_c_style_bytes]
  by_cases h9 : b = 9
  · subst h9; simp [encQuotedByte, dequote_c_style_bytes]
  by_cases h13 : b = 13
  · subst h13; simp [encQuotedByte, dequote_c_style_bytes]
  by_cases hoct : b ≤ 31 ∨ 127 ≤ b
  · have henc : encQuotedByte b = [92, b / 64 % 8 + 48, b / 8 % 8 + 48,
        b % 8 + 48] := by
      simp [encQuotedByte, h34, h92, h10, h9, h13, hoct]
    rw [henc]
    have hl : [92, b / 64 % 8 + 48, b / 8 % 8 + 48, b % 8 + 48] ++ t =
        92 :: (b / 64 % 8 + 48) :: (b / 8 % 8 + 48) :: (b % 8 + 48) :: t :=
      rfl
    rw [hl, dequote_octal (b / 64 % 8 + 48) (b / 8 % 8 + 48) (b % 8 + 48) t
      (by omega) (by omega) (by omega)]
    congr 1
    omega
  · have henc : encQuotedByte b = [b] := by
      simp [encQuotedByte, h34, h92, h10, h9, h13, hoct]
    rw [henc]
    have hl : [b] ++ t = b :: t := rfl
    rw [hl, dequote_c_style_bytes.eq_def]
    simp [h92]

/-- Dequoting the body of an enquoted byte string is the identity. -/
theorem dequote_enquote_body (s : List Nat) (hs : ∀ b ∈ s, b < 256) :
    dequote_c_style_bytes (s.flatMap encQuotedByte) = s := by
  induction s with
  | nil => simp [dequote_c_style_bytes]
  | cons b s ih =>
    rw [List.flatMap_cons,
      dequote_encQuotedByte b (hs b (by simp)) _,
      ih fun x hx => hs x (by simp [hx])]

/-- Decoding an enquoted byte string is the identity. -/
theorem decode_enquote (s : List Nat) (hs : ∀ b ∈ s, b < 256) :
    decode_fast_export_path_bytes (enquote_c_style_bytes s) = s := by
  have hlast : (enquote_c_style_bytes s).getLast? = some 34 := by
    rw [enquote_c_style_bytes, ← List.cons_append, List.getLast?_concat]
  have hhead : (enquote_c_style_bytes s).head? = some 34 := rfl
  have hlen : 2 ≤ (enquote_c_style_bytes s).length := by
    rw [enquote_c_style_bytes]
    simp only [List.length_cons, List.length_append, List.length_nil]
    omega
  have hneg : ¬((enquote_c_style_bytes s).getLast? = some 10) := by
    rw [hlast]
    simp
  unfold decode_fast_export_path_bytes
  rw [if_neg hneg, if_pos ⟨hhead, hlast, hlen⟩]
  have hdrop : ((enquote_c_style_bytes s).drop 1).dropLast =
      s.flatMap encQuotedByte := by
    rw [enquote_c_style_bytes]
    show (s.flatMap encQuotedByte ++ [34]).dropLast = s.flatMap encQuotedByte
    exact List.dropLast_concat
  rw [hdrop]
  exact dequote_enquote_body s hs

/-- Decoding a byte string that needed no quoting is the identity. -/
theorem decode_plain (s : List Nat) (h : needs_c_style_quote s = false) :
    decode_fast_export_path_bytes s = s := by
  rcases s with _ | ⟨a, s'⟩
  · rfl
  · have hall := List.any_eq_false.mp h
    have hlast10 : ¬((a :: s').getLast? = some 10) := by
      intro hc
      have h10 : (10 : Nat) ∈ a :: s' :=
        List.mem_of_mem_getLast? (by simp [Option.mem_def, hc])
      have := hall 10 h10
      simp at this
    have hhead34 : ¬((a :: s').head? = some 34) := by
      simp only [List.head?_cons, Option.some.injEq]
      intro hc
      subst hc
      have := hall 34 (by simp)
      simp at this
    unfold decode_fast_export_path_bytes
    rw [if_neg hlast10, if_neg (fun hc => hhead34 hc.1), if_neg hhead34]

/-- Every sanitized byte stays below 256. -/
theorem sanitize_lt_256 (p : List Nat) (hp : ∀ b ∈ p, b < 256) :
    ∀ b ∈ sanitize_fast_import_path_bytes p, b < 256 := by
  intro b hb
  simp only [sanitize_fast_import_path_bytes, List.mem_map] at hb
  obtain ⟨a, ha, rfl⟩ := hb
  split
  · omega
  · exact hp a ha

/-- The quoting trigger of `needs_c_style_quote` is exactly the
claimed one: a space, a control byte, a byte at or above `0x7F`, a
double quote, or a backslash. -/
theorem needs_quote_eq_claim (s : List Nat) :
    needs_c_style_quote s = s.any fun b =>
      decide (b = 32) || decide (b ≤ 31) || decide (127 ≤ b) ||
        decide (b = 34) || decide (b = 92) := by
  unfold needs_c_style_quote
  congr 1
  funext b
  rw [Bool.eq_iff_iff]
  simp only [Bool.or_eq_true, decide_eq_true_eq]
  omega

/-- C6 amended: decoding the emitted form recovers the control-byte
sanitized path — `decode_fast_export_path_bytes (encode_path_for_fi P)`
equals `sanitize_fast_import_path_bytes P` (which is the claimed
sanitize wherever the platform-compat policy is inert, i.e. on
non-Windows builds; `encode_path_for_fi` itself never applies the
Windows policy) — and the result is C-style quoted exactly when it
contains a space, control byte, byte ≥ 0x7F, double quote, or
backslash. -/
theorem c6_amended_roundtrip (p : List Nat) (hp : ∀ b ∈ p, b < 256) :
    decode_fast_export_path_bytes (encode_path_for_fi p) =
      sanitize_fast_import_path_bytes p ∧
    encode_path_for_fi p =
      (if (sanitize_fast_import_path_bytes p).any (fun b =>
          decide (b = 32) || decide (b ≤ 31) || decide (127 ≤ b) ||
            decide (b = 34) || decide (b = 92)) = true then
        enquote_c_style_bytes (sanitize_fast_import_path_bytes p)
      else sanitize_fast_import_path_bytes p) := by
  constructor
  · simp only [encode_path_for_fi]
    cases hq : needs_c_style_quote (sanitize_fast_import_path_bytes p)
    · simp only [Bool.false_eq_true, if_false]
      exact decode_plain _ hq
    · simp only [if_true]
      exact decode_enquote _ (sanitize_lt_256 p hp)
  · simp only [encode_path_for_fi]
    rw [← needs_quote_eq_claim]

/-- Witness for the amended C6 on a concrete path containing a space
(so the quoted branch is exercised). -/
theorem c6_amended_witness :
    decode_fast_export_path_bytes (encode_path_for_fi (sBytes "a b")) =
      sanitize_fast_import_path_bytes (sBytes "a b") :=
  (c6_amended_roundtrip (sBytes "a b") (by decide)).1

/-- C6 counterexample: with the platform-compat policy actually applied
(the `cfg(windows)` branch, where the policy is not the identity),
`decode ∘ encode_path_for_fi` does not equal the claimed sanitize: the
path `":"` round-trips to `":"` while the claimed sanitize yields `"_"`
— `encode_path_for_fi` never applies the Windows policy (that happens
earlier, in `encode_path_for_fi_with_policy`). -/
theorem c6_counterexample :
    decode_fast_export_path_bytes (encode_path_for_fi (sBytes ":")) =
      sBytes ":" ∧
    claim_sanitize true (sBytes ":") = sBytes "_" ∧
    sBytes ":" ≠ sBytes "_" := by
  exact ⟨rfl, rfl, by decide⟩

/-! ### C8: glob matching -/

/-- Soundness half: a successful `match_from` yields a `GlobSpec`
derivation. -/
theorem match_from_sound : ∀ (n : Nat) (p t : List Nat), p.length ≤ n →
    match_from p t = true → GlobSpec p t := by
  intro n
  induction n with
  | zero =>
    intro p t hl h
    have hp : p = [] := List.eq_nil_of_length_eq_zero (Nat.le_zero.mp hl)
    subst hp
    simp only [match_from, List.isEmpty_iff] at h
    subst h
    exact GlobSpec.nil
  | succ n ih =>
    intro p t hl h
    rw [match_from.eq_def] at h
    split at h
    · -- p = []
      simp only [List.isEmpty_iff] at h
      subst h
      exact GlobSpec.nil
    · -- p = 42 :: 42 :: 47 :: p₁
      rename_i p₁
      rw [List.any_eq_true] at h
      obtain ⟨i, _, hm⟩ := h
      have hg := ih p₁ (t.drop i)
        (by simp only [List.length_cons] at hl; omega) hm
      have := GlobSpec.dstarSlash (t.take i) hg
      rwa [List.take_append_drop] at this
    · -- p = 42 :: 42 :: p₁, p₁ not starting with 47
      rename_i p₁ hns
      rw [List.any_eq_true] at h
      obtain ⟨i, _, hm⟩ := h
      have hg := ih p₁ (t.drop i)
        (by simp only [List.length_cons] at hl; omega) hm
      have hp47 : p₁.head? ≠ some 47 := by
        intro hb
        rcases p₁ with _ | ⟨b, p'⟩
        · simp at hb
        · simp only [List.head?_cons] at hb
          injection hb with hb'
          exact hns p' (by rw [hb'])
      have := GlobSpec.dstar (t.take i) hp47 hg
      rwa [List.take_append_drop] at this
    · -- p = 42 :: p₁, p₁ not starting with 42
      rename_i p₁ _ hns
      rw [List.any_eq_true] at h
      obtain ⟨i, _, hm⟩ := h
      rw [Bool.and_eq_true] at hm
      have hg := ih p₁ (t.drop i)
        (by simp only [List.length_cons] at hl; omega) hm.2
      have hrun : ∀ b ∈ t.take i, b ≠ 47 := by
        intro b hb
        have := List.all_eq_true.mp hm.1 b hb
        simpa using this
      have hp42 : p₁.head? ≠ some 42 := by
        intro hb
        rcases p₁ with _ | ⟨b, p'⟩
        · simp at hb
        · simp only [List.head?_cons] at hb
          injection hb with hb'
          exact hns p' (by rw [hb'])
      have := GlobSpec.star (t.take i) hrun hp42 hg
      rwa [List.take_append_drop] at this
    · -- p = 63 :: p₁
      rename_i p₁
      rcases t with _ | ⟨c, t'⟩
      · simp at h
      · have h' : (if c = 47 then false else match_from p₁ t') = true := h
        by_cases hc : c = 47
        · rw [if_pos hc] at h'
          simp at h'
        · rw [if_neg hc] at h'
          exact GlobSpec.qmark c hc
            (ih p₁ t' (by simp only [List.length_cons] at hl; omega) h')
    · -- p = b :: p₁, b neither 42 nor 63
      rename_i b p₁ _ _ h42 h63
      rcases t with _ | ⟨c, t'⟩
      · simp at h
      · have h' : (if b = c then match_from p₁ t' else false) = true := h
        by_cases hbc : b = c
        · subst hbc
          rw [if_pos rfl] at h'
          exact GlobSpec.lit b (fun he => h42 he) (fun he => h63 he)
            (ih p₁ t' (by simp only [List.length_cons] at hl; omega) h')
        · rw [if_neg hbc] at h'
          simp at h'

/-- Reduction of `match_from` on a `**` followed by a slash. -/
theorem match_from_ds_slash_eq (p t : List Nat) :
    match_from (42 :: 42 :: 47 :: p) t =
      (List.range (t.length + 1)).any fun i => match_from p (t.drop i) := by
  rw [match_from.eq_def]

/-- Reduction of `match_from` on a `**` not followed by a slash. -/
theorem match_from_ds_eq (p t : List Nat) (hp : p.head? ≠ some 47) :
    match_from (42 :: 42 :: p) t =
      (List.range (t.length + 1)).any fun i => match_from p (t.drop i) := by
  rw [match_from.eq_def]
  split
  · rename_i heq
    simp at heq
  · rename_i p₁ heq
    simp only [List.cons.injEq] at heq
    exact absurd (by rw [heq.2.2]; rfl) hp
  · rename_i p₁ _ heq
    simp only [List.cons.injEq] at heq
    rw [heq.2.2]
  · rename_i p₁ _ hnc heq
    simp only [List.cons.injEq] at heq
    exact absurd heq.2.symm (hnc p)
  · rename_i p₁ heq
    simp at heq
  · rename_i b p₁ _ _ hb42 _ heq
    simp only [List.cons.injEq] at heq
    exact absurd heq.1.symm hb42

/-- Reduction of `match_from` on a single `*`. -/
theorem match_from_star_eq (p t : List Nat) (hp : p.head? ≠ some 42) :
    match_from (42 :: p) t =
      (List.range (t.length + 1)).any fun i =>
        ((t.take i).all fun b => b ≠ 47) && match_from p (t.drop i) := by
  rw [match_from.eq_def]
  split
  · rename_i heq
    simp at heq
  · rename_i p₁ heq
    simp only [List.cons.injEq] at heq
    exact absurd (by rw [heq.2]; rfl) hp
  · rename_i p₁ _ heq
    simp only [List.cons.injEq] at heq
    exact absurd (by rw [heq.2]; rfl) hp
  · rename_i p₁ _ _ heq
    simp only [List.cons.injEq] at heq
    rw [heq.2]
  · rename_i p₁ heq
    simp at heq
  · rename_i b p₁ _ _ hb42 _ heq
    simp only [List.cons.injEq] at heq
    exact absurd heq.1.symm hb42

/-- Reduction of `match_from` on a `?` against a non-empty path. -/
theorem match_from_qmark_cons (p : List Nat) (c : Nat) (t' : List Nat) :
    match_from (63 :: p) (c :: t') =
      if c = 47 then false else match_from p t' := by
  rw [match_from.eq_def]

/-- Reduction of `match_from` on a literal byte against a non-empty
path. -/
theorem match_from_lit_cons (b : Nat) (p : List Nat) (c : Nat)
    (t' : List Nat) (hb : b ≠ 42) (hb2 : b ≠ 63) :
    match_from (b :: p) (c :: t') =
      if b = c then match_from p t' else false := by
  rw [match_from.eq_def]
  split
  · rename_i heq
    simp at heq
  · rename_i p₁ heq
    simp only [List.cons.injEq] at heq
    exact absurd heq.1 hb
  · rename_i p₁ _ heq
    simp only [List.cons.injEq] at heq
    exact absurd heq.1 hb
  · rename_i p₁ _ _ heq
    simp only [List.cons.injEq] at heq
    exact absurd heq.1 hb
  · rename_i p₁ heq
    simp only [List.cons.injEq] at heq
    exact absurd heq.1 hb2
  · rename_i b₁ p₁ _ _ _ _ heq
    simp only [List.cons.injEq] at heq
    rw [heq.1, heq.2]

/-- Completeness half: every `GlobSpec` derivation is accepted by
`match_from`. -/
theorem match_from_complete : ∀ {p t : List Nat}, GlobSpec p t →
    match_from p t = true := by
  intro p t hg
  induction hg with
  | nil => simp [match_from]
  | dstarSlash run h ih =>
    rw [match_from_ds_slash_eq, List.any_eq_true]
    refine ⟨run.length, ?_, ?_⟩
    · rw [List.mem_range, List.length_append]
      omega
    · rw [List.drop_left]
      exact ih
  | dstar run hp h ih =>
    rw [match_from_ds_eq _ _ hp, List.any_eq_true]
    refine ⟨run.length, ?_, ?_⟩
    · rw [List.mem_range, List.length_append]
      omega
    · rw [List.drop_left]
      exact ih
  | star run hrun hp h ih =>
    rw [match_from_star_eq _ _ hp, List.any_eq_true]
    refine ⟨run.length, ?_, ?_⟩
    · rw [List.mem_range, List.length_append]
      omega
    · rw [Bool.and_eq_true, List.take_left, List.drop_left]
      refine ⟨List.all_eq_true.mpr fun b hb => ?_, ih⟩
      simpa using hrun b hb
  | qmark c hc h ih =>
    rw [match_from_qmark_cons, if_neg hc]
    exact ih
  | lit b hb hb2 h ih =>
    rw [match_from_lit_cons _ _ _ _ hb hb2, if_pos rfl]
    exact ih

/-- C8 amended: `glob_match_bytes` realizes exactly the anchored glob
semantics `GlobSpec` — `*` a run of non-`/` bytes, `**` any run (with a
directly following `/` absorbed), `?` one non-`/` byte, other bytes
literal — with the pattern covering the whole path (anchored at both
ends). -/
theorem c8_amended_glob_semantics (p t : List Nat) :
    glob_match_bytes p t = true ↔ GlobSpec p t :=
  ⟨fun h => match_from_sound p.length p t (Nat.le_refl _) h,
   fun h => match_from_complete h⟩

/-- C8 counterexample: matching is anchored, so a pattern does not
match a proper substring of the path — the literal pattern `a` fails
against the path `ab` (no end anchor would make it succeed), and the
literal pattern `b` fails against `ab` (no start anchor would make it
succeed), refuting "no anchors are implied". -/
theorem c8_counterexample :
    glob_match_bytes (sBytes "a") (sBytes "ab") = false ∧
    glob_match_bytes (sBytes "b") (sBytes "ab") = false := by
  constructor <;> simp [glob_match_bytes, match_from, sBytes]

theorem pass1_after_first (emitted : List Nat) (amap : List (Nat × Nat)) :
    ∀ (parents : List ParentLine) (idx : Nat) (seen : List Nat) (j : Nat)
      (fkm : Option Nat) (kc : Nat), j < idx →
    finalizePass1 emitted amap parents idx seen (some j) fkm kc =
      (repsOf emitted amap parents seen, some j, fkm,
        kc + (keptParents emitted amap parents seen).length) ∧
    finalizePass2 (some j) (repsOf emitted amap parents seen) idx =
      renderKept (keptParents emitted amap parents seen) false := by
  intro parents
  induction parents with
  | nil =>
    intro idx seen j fkm kc hj
    simp [finalizePass1, repsOf, keptParents, renderKept, finalizePass2]
  | cons p rest ih =>
    intro idx seen j fkm kc hj
    rcases hm : p.mark with _ | mark
    · have ih' := ih (idx + 1) seen j fkm (kc + 1) (by omega)
      constructor
      · simp only [finalizePass1, hm, Option.isNone_some, Bool.false_eq_true,
          if_false, ih'.1, repsOf, keptParents]
        simp [Prod.ext_iff]
        omega
      · simp only [repsOf, hm, keptParents, renderKept, finalizePass2]
        rw [if_neg (by simp; omega :
          ¬(some j = some idx ∧ startsWithB (sBytes "merge ") p.bytes = true))]
        rw [ih'.2]
        simp
    · by_cases h1 : resolve_canonical_mark amap mark ∈ emitted
      · by_cases h2 : resolve_canonical_mark amap mark ∈ seen
        · have ih' := ih (idx + 1) seen j fkm kc (by omega)
          constructor
          · simp only [finalizePass1, hm]
            rw [if_neg (by simp [h1]), if_pos h2, ih'.1]
            simp [repsOf, hm, keptParents, h1, h2]
          · simp only [repsOf, hm]
            rw [if_neg (by simp [h1]), if_pos h2]
            simp only [finalizePass2]
            rw [ih'.2]
            simp [keptParents, hm, h1, h2]
        · have ih' := ih (idx + 1) (resolve_canonical_mark amap mark :: seen)
            j fkm (kc + 1) (by omega)
          constructor
          · simp only [finalizePass1, hm]
            rw [if_neg (by simp [h1]), if_neg h2]
            simp only [Option.isNone_some, Bool.false_eq_true, if_false]
            rw [ih'.1]
            simp only [repsOf, hm, keptParents]
            rw [if_neg (by simp [h1]), if_neg h2,
              if_pos ⟨h1, h2⟩]
            simp [Prod.ext_iff]
            omega
          · simp only [repsOf, hm]
            rw [if_neg (by simp [h1]), if_neg h2]
            simp only [finalizePass2]
            rw [if_neg (by simp; omega : ¬(some j = some idx))]
            rw [ih'.2]
            simp only [keptParents, hm]
            rw [if_pos ⟨h1, h2⟩]
            simp [renderKept]
      · have ih' := ih (idx + 1) seen j fkm kc (by omega)
        constructor
        · simp only [finalizePass1, hm]
          rw [if_pos h1, ih'.1]
          simp [repsOf, hm, keptParents, h1]
        · simp only [repsOf, hm]
          rw [if_pos h1]
          simp only [finalizePass2]
          rw [ih'.2]
          simp [keptParents, hm, h1]



theorem pass1_from_start (emitted : List Nat) (amap : List (Nat × Nat)) :
    ∀ (parents : List ParentLine) (idx : Nat) (seen : List Nat) (kc : Nat),
    (finalizePass1 emitted amap parents idx seen none none kc).1 =
      repsOf emitted amap parents seen ∧
    (finalizePass1 emitted amap parents idx seen none none kc).2.2.1 =
      firstKeptCanonical (keptParents emitted amap parents seen) ∧
    (finalizePass1 emitted amap parents idx seen none none kc).2.2.2 =
      kc + (keptParents emitted amap parents seen).length ∧
    finalizePass2
      (finalizePass1 emitted amap parents idx seen none none kc).2.1
      (repsOf emitted amap parents seen) idx =
      renderKept (keptParents emitted amap parents seen) true := by
  intro parents
  induction parents with
  | nil =>
    intro idx seen kc
    simp [finalizePass1, repsOf, keptParents, renderKept, finalizePass2,
      firstKeptCanonical]
  | cons p rest ih =>
    intro idx seen kc
    rcases hm : p.mark with _ | mark
    · have hA := pass1_after_first emitted amap rest (idx + 1) seen idx
        none (kc + 1) (Nat.lt_succ_self idx)
      refine ⟨?_, ?_, ?_, ?_⟩
      · simp only [finalizePass1, hm, Option.isNone_none, if_true, hA.1,
          repsOf]
      · simp only [finalizePass1, hm, Option.isNone_none, if_true, hA.1,
          keptParents, firstKeptCanonical]
      · simp only [finalizePass1, hm, Option.isNone_none, if_true, hA.1,
          keptParents]
        simp
        omega
      · simp only [finalizePass1, hm, Option.isNone_none, if_true, hA.1,
          repsOf, keptParents, renderKept, finalizePass2]
        rw [hA.2]
    · by_cases h1 : resolve_canonical_mark amap mark ∈ emitted
      · by_cases h2 : resolve_canonical_mark amap mark ∈ seen
        · have ih' := ih (idx + 1) seen kc
          refine ⟨?_, ?_, ?_, ?_⟩
          · simp only [finalizePass1, hm]
            rw [if_neg (by simp [h1]), if_pos h2]
            simp only [repsOf, hm]
            rw [if_neg (by simp [h1]), if_pos h2]
            simp [ih'.1]
          · simp only [finalizePass1, hm]
            rw [if_neg (by simp [h1]), if_pos h2]
            simp only [keptParents, hm]
            rw [if_neg (by simp [h2])]
            simp [ih'.2.1]
          · simp only [finalizePass1, hm]
            rw [if_neg (by simp [h1]), if_pos h2]
            simp only [keptParents, hm]
            rw [if_neg (by simp [h2])]
            simp [ih'.2.2.1]
          · simp only [repsOf, hm]
            rw [if_neg (by simp [h1]), if_pos h2]
            simp only [finalizePass1, hm]
            rw [if_neg (by simp [h1]), if_pos h2]
            simp only [finalizePass2]
            simp only [keptParents, hm]
            rw [if_neg (by simp [h2])]
            exact ih'.2.2.2
        · have hA := pass1_after_first emitted amap rest (idx + 1)
            (resolve_canonical_mark amap mark :: seen) idx
            (some (resolve_canonical_mark amap mark)) (kc + 1)
            (Nat.lt_succ_self idx)
          refine ⟨?_, ?_, ?_, ?_⟩
          · simp only [finalizePass1, hm]
            rw [if_neg (by simp [h1]), if_neg h2]
            simp only [Option.isNone_none, if_true, hA.1]
            simp only [repsOf, hm]
            rw [if_neg (by simp [h1]), if_neg h2]
          · simp only [finalizePass1, hm]
            rw [if_neg (by simp [h1]), if_neg h2]
            simp only [Option.isNone_none, if_true, hA.1]
            simp only [keptParents, hm]
            rw [if_pos ⟨h1, h2⟩]
            simp [firstKeptCanonical]
          · simp only [finalizePass1, hm]
            rw [if_neg (by simp [h1]), if_neg h2]
            simp only [Option.isNone_none, if_true, hA.1]
            simp only [keptParents, hm]
            rw [if_pos ⟨h1, h2⟩]
            simp
            omega
          · simp only [repsOf, hm]
            rw [if_neg (by simp [h1]), if_neg h2]
            simp only [finalizePass1, hm]
            rw [if_neg (by simp [h1]), if_neg h2]
            simp only [Option.isNone_none, if_true, hA.1]
            simp only [finalizePass2]
            rw [hA.2]
            simp [keptParents, hm, h1, h2, renderKept]
      · have ih' := ih (idx + 1) seen kc
        refine ⟨?_, ?_, ?_, ?_⟩
        · simp only [finalizePass1, hm]
          rw [if_pos h1]
          simp only [repsOf, hm]
          rw [if_pos h1]
          simp [ih'.1]
        · simp only [finalizePass1, hm]
          rw [if_pos h1]
          simp only [keptParents, hm]
          rw [if_neg (by simp [h1])]
          simp [ih'.2.1]
        · simp only [finalizePass1, hm]
          rw [if_pos h1]
          simp only [keptParents, hm]
          rw [if_neg (by simp [h1])]
          simp [ih'.2.2.1]
        · simp only [repsOf, hm]
          rw [if_pos h1]
          simp only [finalizePass1, hm]
          rw [if_pos h1]
          simp only [finalizePass2]
          simp only [keptParents, hm]
          rw [if_neg (by simp [h1])]
          exact ih'.2.2.2

theorem keptParents_mem (emitted : List Nat) (amap : List (Nat × Nat)) :
    ∀ (parents : List ParentLine) (seen : List Nat)
      (pc : ParentLine × Option Nat),
      pc ∈ keptParents emitted amap parents seen → pc.1 ∈ parents := by
  intro parents
  induction parents with
  | nil => intro seen pc h; simp [keptParents] at h
  | cons p rest ih =>
    intro seen pc h
    rcases hm : p.mark with _ | mark <;>
      simp only [keptParents, hm, List.mem_cons] at h
    · rcases h with h | h
      · subst h; simp
      · exact List.mem_cons_of_mem _ (ih _ _ h)
    · split at h
      · rw [List.mem_cons] at h
        rcases h with h | h
        · subst h; simp
        · exact List.mem_cons_of_mem _ (ih _ _ h)
      · exact List.mem_cons_of_mem _ (ih _ _ h)

theorem keptParents_tail_mem (emitted : List Nat) (amap : List (Nat × Nat)) :
    ∀ (parents : List ParentLine) (seen : List Nat)
      (pc : ParentLine × Option Nat),
      pc ∈ (keptParents emitted amap parents seen).drop 1 →
      pc.1 ∈ parents.drop 1 := by
  intro parents
  rcases parents with _ | ⟨p, rest⟩
  · intro seen pc h; simp [keptParents] at h
  · intro seen pc h
    rcases hm : p.mark with _ | mark <;>
      simp only [keptParents, hm, List.mem_cons] at h
    · simp only [List.drop_one, List.tail_cons] at h
      exact keptParents_mem emitted amap rest _ pc h
    · split at h
      · simp only [List.drop_one, List.tail_cons] at h
        exact keptParents_mem emitted amap rest _ pc h
      · have := List.mem_of_mem_drop h
        exact keptParents_mem emitted amap rest _ pc this

theorem startsWithB_append (pre x : List Nat) :
    startsWithB pre (pre ++ x) = true := by
  simp [startsWithB, List.take_left]

theorem startsWith_rebuild_merge (c : Nat) :
    startsWithB (sBytes "merge ") (rebuild_parent_line ParentKind.mergeKw c) =
      true := by
  have h7 : rebuild_parent_line ParentKind.mergeKw c =
      sBytes "merge " ++ (58 :: (natToDecBytes c ++ [10])) := rfl
  rw [h7]
  exact startsWithB_append _ _

theorem startsWith_rebuild_from (c : Nat) :
    startsWithB (sBytes "from ") (rebuild_parent_line ParentKind.fromKw c) =
      true := by
  have h7 : rebuild_parent_line ParentKind.fromKw c =
      sBytes "from " ++ (58 :: (natToDecBytes c ++ [10])) := rfl
  rw [h7]
  exact startsWithB_append _ _

theorem renderKept_false_merge :
    ∀ (kl : List (ParentLine × Option Nat)),
      (∀ pc ∈ kl, pc.1.kind = ParentKind.mergeKw ∧
        (pc.2 = none → startsWithB (sBytes "merge ") pc.1.bytes = true)) →
      ∀ l ∈ renderKept kl false, startsWithB (sBytes "merge ") l = true := by
  intro kl
  induction kl with
  | nil => intro _ l hl; simp [renderKept] at hl
  | cons pc rest ih =>
    intro hcond l hl
    rcases pc with ⟨p, _ | c⟩
    · simp only [renderKept, Bool.false_eq_true, false_and, if_false, List.mem_cons] at hl
      rcases hl with hl | hl
      · subst hl
        exact (hcond (p, none) (by simp)).2 rfl
      · exact ih (fun q hq => hcond q (List.mem_cons_of_mem _ hq)) l hl
    · simp only [renderKept, Bool.false_eq_true, if_false, List.mem_cons] at hl
      rcases hl with hl | hl
      · subst hl
        have hk := (hcond (p, some c) (by simp)).1
        rw [hk]
        exact startsWith_rebuild_merge c
      · exact ih (fun q hq => hcond q (List.mem_cons_of_mem _ hq)) l hl

theorem finalize_eq_spec (parents : List ParentLine) (emitted : List Nat)
    (amap : List (Nat × Nat)) :
    finalize_parent_lines parents emitted amap =
      (renderKept (keptParents emitted amap parents []) true,
       firstKeptCanonical (keptParents emitted amap parents []),
       (keptParents emitted amap parents []).length) := by
  have hB := pass1_from_start emitted amap parents 0 [] 0
  rcases hr : finalizePass1 emitted amap parents 0 [] none none 0 with
    ⟨reps, fki, fkm, kc⟩
  rw [hr] at hB
  obtain ⟨h1, h2, h3, h4⟩ := hB
  simp only at h1 h2 h3 h4
  rcases parents with _ | ⟨p, rest⟩
  · simp [finalize_parent_lines, keptParents, renderKept, firstKeptCanonical]
  · simp only [finalize_parent_lines, List.isEmpty_cons, Bool.false_eq_true,
      if_false, hr]
    subst h1
    refine Prod.ext ?_ (Prod.ext ?_ ?_) <;> simp [h2, h3, h4]

theorem keptParents_raw_mark (emitted : List Nat) (amap : List (Nat × Nat)) :
    ∀ (parents : List ParentLine) (seen : List Nat)
      (pc : ParentLine × Option Nat),
      pc ∈ keptParents emitted amap parents seen → pc.2 = none →
      pc.1.mark = none := by
  intro parents
  induction parents with
  | nil => intro seen pc h; simp [keptParents] at h
  | cons p rest ih =>
    intro seen pc h hraw
    rcases hm : p.mark with _ | mark <;>
      simp only [keptParents, hm, List.mem_cons] at h
    · rcases h with h | h
      · subst h; exact hm
      · exact ih _ _ h hraw
    · split at h
      · rw [List.mem_cons] at h
        rcases h with h | h
        · subst h; simp at hraw
        · exact ih _ _ h hraw
      · exact ih _ _ h hraw

/-- C2: `finalize_parent_lines` drops a marked parent iff its canonical
mark is unemitted or a duplicate (first occurrence kept), keeps raw
parents, re-emits the first retained line as `from` (swapping a raw
`merge` keyword), keeps every later line's kind, and returns the first
retained canonical mark and the kept count; consequently, when all
parents after the first use the `merge` keyword and raw lines carry
their own keyword, every emitted line list has `from` first and `merge`
for all the rest. -/
theorem c2_finalize_characterization (parents : List ParentLine)
    (emitted : List Nat) (amap : List (Nat × Nat)) :
    finalize_parent_lines parents emitted amap =
      (renderKept (keptParents emitted amap parents []) true,
       firstKeptCanonical (keptParents emitted amap parents []),
       (keptParents emitted amap parents []).length) ∧
    ((∀ q ∈ parents.drop 1, q.kind = ParentKind.mergeKw) →
     (∀ q ∈ parents, q.mark = none →
        (q.kind = ParentKind.fromKw →
          startsWithB (sBytes "from ") q.bytes = true) ∧
        (q.kind = ParentKind.mergeKw →
          startsWithB (sBytes "merge ") q.bytes = true)) →
     (∀ l ∈ (finalize_parent_lines parents emitted amap).1.take 1,
        startsWithB (sBytes "from ") l = true) ∧
     (∀ l ∈ (finalize_parent_lines parents emitted amap).1.drop 1,
        startsWithB (sBytes "merge ") l = true)) := by
  refine ⟨finalize_eq_spec parents emitted amap, ?_⟩
  intro hk hb
  have h1 : (finalize_parent_lines parents emitted amap).1 =
      renderKept (keptParents emitted amap parents []) true := by
    rw [finalize_eq_spec]
  rw [h1]
  rcases hkl : keptParents emitted amap parents [] with _ | ⟨⟨p0, oc⟩, klr⟩
  · simp [renderKept]
  · have hcond : ∀ pc ∈ klr, pc.1.kind = ParentKind.mergeKw ∧
        (pc.2 = none → startsWithB (sBytes "merge ") pc.1.bytes = true) := by
      intro pc hpc
      have hdrop : pc ∈ (keptParents emitted amap parents []).drop 1 := by
        rw [hkl]; simpa using hpc
      have hmemk : pc ∈ keptParents emitted amap parents [] := by
        rw [hkl]; exact List.mem_cons_of_mem _ hpc
      have htl := keptParents_tail_mem emitted amap parents [] pc hdrop
      have hmem : pc.1 ∈ parents := List.mem_of_mem_drop htl
      refine ⟨hk pc.1 htl, fun hr => ?_⟩
      have hmk := keptParents_raw_mark emitted amap parents [] pc hmemk hr
      exact (hb pc.1 hmem hmk).2 (hk pc.1 htl)
    constructor
    · intro l hl
      rcases oc with _ | c
      · have hmemk0 : ((p0, none) : ParentLine × Option Nat) ∈
            keptParents emitted amap parents [] := by
          rw [hkl]; simp
        have hp0 : p0 ∈ parents :=
          keptParents_mem emitted amap parents [] (p0, none) hmemk0
        have hmk0 : p0.mark = none :=
          keptParents_raw_mark emitted amap parents [] (p0, none) hmemk0 rfl
        have hbp := hb p0 hp0 hmk0
        by_cases hsm : startsWithB (sBytes "merge ") p0.bytes = true
        · have hl' : l = sBytes "from " ++ p0.bytes.drop 6 := by
            simp [renderKept, hsm] at hl; exact hl
          rw [hl']
          exact startsWithB_append _ _
        · have hl' : l = p0.bytes := by
            simp [renderKept, hsm] at hl; exact hl
          rw [hl']
          rcases hkind : p0.kind with _ | _
          · exact hbp.1 hkind
          · exact absurd (hbp.2 hkind) hsm
      · have hl' : l = rebuild_parent_line ParentKind.fromKw c := by
          simp [renderKept] at hl; exact hl
        rw [hl']
        exact startsWith_rebuild_from c
    · intro l hl
      rcases oc with _ | c <;>
        simp only [renderKept, List.drop_succ_cons, List.drop_zero] at hl <;>
        exact renderKept_false_merge klr hcond l hl

theorem c2_witness :
    (∀ l ∈ (finalize_parent_lines
        [⟨sBytes "from :1\n", some 1, ParentKind.fromKw⟩,
         ⟨sBytes "merge :2\n", some 2, ParentKind.mergeKw⟩] [2] []).1.take 1,
      startsWithB (sBytes "from ") l = true) ∧
    (∀ l ∈ (finalize_parent_lines
        [⟨sBytes "from :1\n", some 1, ParentKind.fromKw⟩,
         ⟨sBytes "merge :2\n", some 2, ParentKind.mergeKw⟩] [2] []).1.drop 1,
      startsWithB (sBytes "merge ") l = true) :=
  (c2_finalize_characterization
    [⟨sBytes "from :1\n", some 1, ParentKind.fromKw⟩,
     ⟨sBytes "merge :2\n", some 2, ParentKind.mergeKw⟩] [2] []).2
    (by decide) (by decide)

/-! ### C9: short-hash mapping in messages -/

theorem shmLoadLine_eq (st : ShortHashState) (raw : List Nat) :
    shmLoadLine st raw =
      match shmPairOfLine raw with
      | none => st
      | some pr => applyShmPair st pr := by
  simp only [shmLoadLine, shmPairOfLine, applyShmPair, mkShmEntry]
  repeat' split
  all_goals first | rfl | contradiction | (rename_i heq h; cases heq; simp_all)

theorem shmLoad_eq_pairFold :
    ∀ (lines : List (List Nat)) (st : ShortHashState),
      List.foldl shmLoadLine st lines =
        List.foldl applyShmPair st (shmPairs lines) := by
  intro lines
  induction lines with
  | nil => intro st; rfl
  | cons l ls ih =>
    intro st
    simp only [List.foldl_cons, shmPairs, List.filterMap_cons]
    rw [shmLoadLine_eq]
    cases hp : shmPairOfLine l
    · exact ih st
    · simp only [List.foldl_cons]
      exact ih _

theorem find?_replace_ne (k key : List Nat) (v : Option (List Nat))
    (hne : key ≠ k) :
    ∀ m : List (List Nat × Option (List Nat)),
      ((m.map fun p => if p.1 = k then (k, v) else p).find? fun p =>
        p.1 = key) = m.find? fun p => p.1 = key := by
  intro m
  have hne' : ¬(k = key) := fun hc => hne hc.symm
  induction m with
  | nil => rfl
  | cons p m ih =>
    rw [List.map_cons]
    by_cases hp : p.1 = k
    · rw [if_pos hp,
        List.find?_cons_of_neg _ (by simp [hne']),
        List.find?_cons_of_neg _ (by simp [hp, hne']),
        ih]
    · rw [if_neg hp]
      by_cases hpk : p.1 = key
      · rw [List.find?_cons_of_pos _ (by simp [hpk]),
          List.find?_cons_of_pos _ (by simp [hpk])]
      · rw [List.find?_cons_of_neg _ (by simp [hpk]),
          List.find?_cons_of_neg _ (by simp [hpk]), ih]

theorem find?_replace_eq (k : List Nat) (v : Option (List Nat)) :
    ∀ m : List (List Nat × Option (List Nat)),
      (m.any fun p => p.1 = k) = true →
      ((m.map fun p => if p.1 = k then (k, v) else p).find? fun p =>
        p.1 = k) = some (k, v) := by
  intro m
  induction m with
  | nil => intro h; simp at h
  | cons p m ih =>
    intro h
    rw [List.map_cons]
    by_cases hp : p.1 = k
    · rw [if_pos hp, List.find?_cons_of_pos _ (by simp)]
    · simp only [List.any_cons, decide_eq_true_eq, hp, false_or,
        Bool.false_or] at h
      rw [if_neg hp, List.find?_cons_of_neg _ (by simp [hp]),
        ih (by simpa using h)]

theorem mapGet_insert (k : List Nat) (v : Option (List Nat))
    (m : List (List Nat × Option (List Nat))) (key : List Nat) :
    mapGet (mapInsert k v m) key =
      if key = k then some v else mapGet m key := by
  by_cases hany : (m.any fun p => p.1 = k) = true
  · rw [mapInsert, if_pos hany]
    by_cases hk : key = k
    · rw [if_pos hk, hk, mapGet, find?_replace_eq k v m hany]
      rfl
    · rw [if_neg hk, mapGet, find?_replace_ne k key v hk m, mapGet]
  · rw [mapInsert, if_neg hany]
    have hnone : (m.find? fun p => p.1 = k) = none := by
      rw [List.find?_eq_none]
      intro p hp
      simp only [List.any_eq_true] at hany
      simp only [decide_eq_true_eq]
      exact fun hc => hany ⟨p, hp, by simp [hc]⟩
    by_cases hk : key = k
    · rw [if_pos hk, hk, mapGet, List.find?_append, hnone]
      simp [List.find?]
    · have hk' : ¬(k = key) := fun hc => hk hc.symm
      have h1 : (([(k, v)] : List (List Nat × Option (List Nat))).find?
          fun p => p.1 = key) = none := by
        simp [List.find?, hk']
      rw [if_neg hk, mapGet, List.find?_append, h1, mapGet]
      cases m.find? fun p => p.1 = key <;> rfl

theorem find?_bpush_ne (k key old : List Nat) (hne : key ≠ k) :
    ∀ m : List (List Nat × List (List Nat)),
      ((m.map fun p => if p.1 = k then (p.1, p.2 ++ [old]) else p).find?
        fun p => p.1 = key) = m.find? fun p => p.1 = key := by
  intro m
  have hne' : ¬(k = key) := fun hc => hne hc.symm
  induction m with
  | nil => rfl
  | cons p m ih =>
    rw [List.map_cons]
    by_cases hp : p.1 = k
    · rw [if_pos hp,
        List.find?_cons_of_neg _ (by simp [hp, hne']),
        List.find?_cons_of_neg _ (by simp [hp, hne']),
        ih]
    · rw [if_neg hp]
      by_cases hpk : p.1 = key
      · rw [List.find?_cons_of_pos _ (by simp [hpk]),
          List.find?_cons_of_pos _ (by simp [hpk])]
      · rw [List.find?_cons_of_neg _ (by simp [hpk]),
          List.find?_cons_of_neg _ (by simp [hpk]), ih]

theorem find?_bpush_eq (k old : List Nat) :
    ∀ m : List (List Nat × List (List Nat)),
      ((m.map fun p => if p.1 = k then (p.1, p.2 ++ [old]) else p).find?
        fun p => p.1 = k) =
        (m.find? fun p => p.1 = k).map fun p => (p.1, p.2 ++ [old]) := by
  intro m
  induction m with
  | nil => rfl
  | cons p m ih =>
    rw [List.map_cons]
    by_cases hp : p.1 = k
    · rw [if_pos hp,
        List.find?_cons_of_pos _ (by simp [hp]),
        List.find?_cons_of_pos _ (by simp [hp])]
      rfl
    · rw [if_neg hp,
        List.find?_cons_of_neg _ (by simp [hp]),
        List.find?_cons_of_neg _ (by simp [hp]), ih]

theorem bucketGet_push (k old : List Nat)
    (m : List (List Nat × List (List Nat))) (key : List Nat) :
    bucketGet (bucketPush k old m) key =
      if key = k then some ((bucketGet m key).getD [] ++ [old])
      else bucketGet m key := by
  by_cases hany : (m.any fun p => p.1 = k) = true
  · rw [bucketPush, if_pos hany]
    by_cases hk : key = k
    · rw [if_pos hk, hk, bucketGet, find?_bpush_eq k old m]
      rcases hf : m.find? fun p => p.1 = k with _ | p
      · exfalso
        simp only [List.any_eq_true] at hany
        obtain ⟨p, hp, hpk⟩ := hany
        exact List.find?_eq_none.mp hf p hp hpk
      · have hpk : p.1 = k := by
          have := List.find?_some hf
          simpa using this
        rw [bucketGet, hf]
        simp [hpk]
    · rw [if_neg hk, bucketGet, find?_bpush_ne k key old hk m, bucketGet]
  · rw [bucketPush, if_neg hany]
    have hnone : (m.find? fun p => p.1 = k) = none := by
      rw [List.find?_eq_none]
      intro p hp
      simp only [List.any_eq_true] at hany
      simp only [decide_eq_true_eq]
      exact fun hc => hany ⟨p, hp, by simp [hc]⟩
    by_cases hk : key = k
    · rw [if_pos hk, hk]
      simp [bucketGet, List.find?_append, hnone, List.find?]
    · have hk' : ¬(k = key) := fun hc => hk hc.symm
      have h1 : (([(k, [old])] : List (List Nat × List (List Nat))).find?
          fun p => p.1 = key) = none := by
        simp [List.find?, hk']
      rw [if_neg hk, bucketGet, List.find?_append, h1, bucketGet]
      cases m.find? fun p => p.1 = key <;> rfl

theorem mapGet_pairFoldl (key : List Nat) :
    ∀ (pairs : List (List Nat × List Nat)) (st : ShortHashState),
      mapGet (List.foldl applyShmPair st pairs).lookupTbl key =
        match (pairs.filter fun pr => pr.1 = key).getLast? with
        | some pr => some (mkShmEntry pr.2)
        | none => mapGet st.lookupTbl key := by
  intro pairs
  induction pairs with
  | nil => intro st; rfl
  | cons pr pairs ih =>
    intro st
    rw [List.foldl_cons, ih (applyShmPair st pr)]
    by_cases hpk : pr.1 = key
    · rw [List.filter_cons_of_pos (by simp [hpk]), List.getLast?_cons]
      rcases hq : (pairs.filter fun q => q.1 = key).getLast? with _ | q
      · rw [hq, show (applyShmPair st pr).lookupTbl =
            mapInsert pr.1 (mkShmEntry pr.2) st.lookupTbl from rfl,
          mapGet_insert, if_pos hpk.symm]
        rfl
      · rw [hq]
        rfl
    · rw [List.filter_cons_of_neg (by simp [hpk]),
        show (applyShmPair st pr).lookupTbl =
          mapInsert pr.1 (mkShmEntry pr.2) st.lookupTbl from rfl,
        mapGet_insert, if_neg (fun hc => hpk hc.symm)]

theorem bucketGet_pairFoldl (key : List Nat) :
    ∀ (pairs : List (List Nat × List Nat)) (st : ShortHashState),
      bucketGet (List.foldl applyShmPair st pairs).pfxIndex key =
        match bucketGet st.pfxIndex key,
          (pairs.filter fun pr =>
            pr.1.take MIN_SHORT_HASH_LEN = key).map Prod.fst with
        | none, [] => none
        | none, olds => some olds
        | some b, olds => some (b ++ olds) := by
  intro pairs
  induction pairs with
  | nil =>
    intro st
    rw [List.foldl_nil]
    rcases hb : bucketGet st.pfxIndex key with _ | b <;> simp [hb]
  | cons pr pairs ih =>
    intro st
    rw [List.foldl_cons, ih (applyShmPair st pr)]
    by_cases hpk : pr.1.take MIN_SHORT_HASH_LEN = key
    · rw [List.filter_cons_of_pos (by simp [hpk]), List.map_cons]
      have hb : bucketGet (applyShmPair st pr).pfxIndex key =
          some ((bucketGet st.pfxIndex key).getD [] ++ [pr.1]) := by
        rw [show (applyShmPair st pr).pfxIndex =
            bucketPush (pr.1.take MIN_SHORT_HASH_LEN) pr.1 st.pfxIndex
          from rfl, bucketGet_push, if_pos hpk.symm]
      rw [hb]
      rcases bucketGet st.pfxIndex key with _ | b
      · rcases (pairs.filter fun q =>
            q.1.take MIN_SHORT_HASH_LEN = key).map Prod.fst with _ | ⟨o, os⟩
          <;> simp
      · rcases (pairs.filter fun q =>
            q.1.take MIN_SHORT_HASH_LEN = key).map Prod.fst with _ | ⟨o, os⟩
          <;> simp
    · rw [List.filter_cons_of_neg (by simp [hpk])]
      have hb : bucketGet (applyShmPair st pr).pfxIndex key =
          bucketGet st.pfxIndex key := by
        rw [show (applyShmPair st pr).pfxIndex =
            bucketPush (pr.1.take MIN_SHORT_HASH_LEN) pr.1 st.pfxIndex
          from rfl, bucketGet_push, if_neg (fun hc => hpk hc.symm)]
      rw [hb]

theorem mapGet_shmLoad (lines : List (List Nat)) (key : List Nat) :
    mapGet (shmLoad lines).lookupTbl key =
      match ((shmPairs lines).filter fun pr => pr.1 = key).getLast? with
      | some pr => some (mkShmEntry pr.2)
      | none => none := by
  rw [shmLoad, shmLoad_eq_pairFold, mapGet_pairFoldl]
  cases hq : ((shmPairs lines).filter fun pr => pr.1 = key).getLast?
  all_goals rfl

theorem bucketGet_shmLoad (lines : List (List Nat)) (key : List Nat) :
    bucketGet (shmLoad lines).pfxIndex key =
      match ((shmPairs lines).filter fun pr =>
          pr.1.take MIN_SHORT_HASH_LEN = key).map Prod.fst with
      | [] => none
      | olds => some olds := by
  rw [shmLoad, shmLoad_eq_pairFold, bucketGet_pairFoldl]
  cases hm : ((shmPairs lines).filter fun pr =>
      pr.1.take MIN_SHORT_HASH_LEN = key).map Prod.fst
  all_goals rfl

theorem shm_filter_chain (pairs : List (List Nat × List Nat))
    (key : List Nat) (h7 : MIN_SHORT_HASH_LEN ≤ key.length) :
    ((pairs.filter fun pr =>
        pr.1.take MIN_SHORT_HASH_LEN = key.take MIN_SHORT_HASH_LEN).map
      Prod.fst).filter
        (fun full => key.length ≤ full.length ∧
          full.take key.length = key) =
      (pairs.filter fun pr => startsWithB key pr.1).map Prod.fst := by
  rw [List.filter_map, List.filter_filter]
  congr 1
  apply List.filter_congr
  intro pr _
  rw [Bool.eq_iff_iff]
  simp only [Function.comp_apply, Bool.and_eq_true, decide_eq_true_eq,
    startsWithB]
  constructor
  · rintro ⟨⟨hlen, ht⟩, _⟩
    exact ht
  · intro ht
    have hlc := congrArg List.length ht
    rw [List.length_take] at hlc
    refine ⟨⟨?_, ht⟩, ?_⟩
    · omega
    · have htt : (pr.1.take key.length).take MIN_SHORT_HASH_LEN =
          pr.1.take MIN_SHORT_HASH_LEN := by
        rw [List.take_take]
        congr 1
        exact Nat.min_eq_left h7
      rw [← htt, ht]

theorem filter_fst_of_starts_singleton (pairs : List (List Nat × List Nat))
    (key : List Nat) (pr : List Nat × List Nat)
    (hsf : pairs.filter (fun q => startsWithB key q.1) = [pr]) :
    (pairs.filter fun q => q.1 = pr.1).getLast? = some pr := by
  have hpr : pr ∈ pairs.filter (fun q => startsWithB key q.1) := by
    rw [hsf]; simp
  have hstarts : startsWithB key pr.1 = true := (List.mem_filter.mp hpr).2
  have hprm : pr ∈ pairs := (List.mem_filter.mp hpr).1
  have hmem : pr ∈ pairs.filter fun q => q.1 = pr.1 :=
    List.mem_filter.mpr ⟨hprm, by simp⟩
  have hall : ∀ x ∈ pairs.filter fun q => q.1 = pr.1, x = pr := by
    intro x hx
    have hx1 := List.mem_filter.mp hx
    have hx2 : x ∈ pairs.filter (fun q => startsWithB key q.1) :=
      List.mem_filter.mpr ⟨hx1.1, by
        have he : x.1 = pr.1 := by simpa using hx1.2
        rw [he]; exact hstarts⟩
    rw [hsf] at hx2
    simpa using hx2
  rcases hg : (pairs.filter fun q => q.1 = pr.1).getLast? with _ | w
  · rw [List.getLast?_eq_none_iff] at hg
    rw [hg] at hmem
    simp at hmem
  · have hwmem : w ∈ pairs.filter fun q => q.1 = pr.1 :=
      List.mem_of_mem_getLast? (by rw [hg]; simp)
    rw [hg, hall w hwmem]

theorem shmTranslate_eq_claim (lines : List (List Nat)) (run : List Nat)
    (h7 : MIN_SHORT_HASH_LEN ≤ run.length) :
    shmTranslate (shmLoad lines) run = claim_resolve_occ lines run := by
  have hklen : (lowerB run).length = run.length := by simp [lowerB]
  have hnlt : ¬run.length < MIN_SHORT_HASH_LEN := Nat.not_lt.mpr h7
  by_cases hl40 : run.length = 40
  · simp only [shmTranslate, claim_resolve_occ, if_neg hnlt, if_pos hl40]
    rw [mapGet_shmLoad]
    cases hq : ((shmPairs lines).filter fun pr =>
        pr.1 = lowerB run).getLast? with
    | none => rfl
    | some pr =>
      by_cases hnull : pr.2 = NULL_OID
      · simp [mkShmEntry, hnull]
      · simp [mkShmEntry, hnull]
  · simp only [shmTranslate, claim_resolve_occ, if_neg hnlt, if_neg hl40]
    simp only [lookupPfx, hklen, if_neg hnlt]
    rw [bucketGet_shmLoad]
    have hchain := shm_filter_chain (shmPairs lines) (lowerB run)
      (by rw [hklen]; exact h7)
    rw [hklen] at hchain
    cases holds : ((shmPairs lines).filter fun pr =>
        pr.1.take MIN_SHORT_HASH_LEN =
          (lowerB run).take MIN_SHORT_HASH_LEN).map Prod.fst with
    | nil =>
      have hsf : ((shmPairs lines).filter fun pr =>
          startsWithB (lowerB run) pr.1) = [] := by
        rw [holds] at hchain
        simp only [List.filter_nil] at hchain
        exact (List.map_eq_nil_iff.mp hchain.symm)
      rw [hsf]
    | cons o os =>
      have hef : ((o :: os).filter fun full =>
          run.length ≤ full.length ∧
            full.take run.length = lowerB run) =
          ((shmPairs lines).filter fun pr =>
            startsWithB (lowerB run) pr.1).map Prod.fst := by
        rw [← holds, hchain]
      rcases hsf : (shmPairs lines).filter
          (fun pr => startsWithB (lowerB run) pr.1) with _ | ⟨pr, prs⟩
      · rw [hsf] at hef
        simp only [List.map_nil] at hef
        rw [hsf]
        simp only [hef]
      · rcases prs with _ | ⟨pr2, rest⟩
        · rw [hsf] at hef
          simp only [List.map_cons, List.map_nil] at hef
          rw [hsf]
          simp only [hef]
          rw [mapGet_shmLoad,
            filter_fst_of_starts_singleton (shmPairs lines) (lowerB run)
              pr hsf]
          by_cases hnull : pr.2 = NULL_OID
          · simp [mkShmEntry, hnull]
          · simp [mkShmEntry, hnull]
        · rw [hsf] at hef
          simp only [List.map_cons] at hef
          rw [hsf]
          simp only [hef]

theorem shmGo_eq_specGo (st : ShortHashState) :
    ∀ (fuel : Nat) (prev : Option Nat) (t : List Nat),
      shmGo st fuel prev t = specShmGo (shmTranslate st) fuel prev t := by
  intro fuel
  induction fuel with
  | zero => intro prev t; cases t <;> rfl
  | succ n ih =>
    intro prev t
    cases t with
    | nil => rfl
    | cons b tl => simp only [shmGo, specShmGo, ih]

theorem specShmGo_congr (f g : List Nat → Option (List Nat))
    (hfg : ∀ r, 7 ≤ r.length → f r = g r) :
    ∀ (fuel : Nat) (prev : Option Nat) (t : List Nat),
      specShmGo f fuel prev t = specShmGo g fuel prev t := by
  intro fuel
  induction fuel with
  | zero => intro prev t; cases t <;> rfl
  | succ n ih =>
    intro prev t
    cases t with
    | nil => rfl
    | cons b tl =>
      simp only [specShmGo]
      split
      · split
        · rename_i hg
          rw [hfg _ hg.1, ih]
        · rw [ih]
      · rw [ih]

/-- C9 (counterexample): a commit-map file that lists the same
`old new` line twice maps `aaaa…a` (40 times) to `bbbb…b`; the 7-hex
run `aaaaaaa` is a prefix of exactly one remapped old oid, yet
`rewrite` leaves it unchanged, because `lookup_prefix` counts the
bucket's per-line occurrences (here two) rather than distinct old
oids; the claim's distinct-oid reading predicts the substitution. -/
theorem c9_counterexample :
    shmRewrite
        (shmLoad [List.replicate 40 97 ++ 32 :: List.replicate 40 98,
                  List.replicate 40 97 ++ 32 :: List.replicate 40 98])
        (List.replicate 7 97) = List.replicate 7 97 ∧
    spec_shm_rewrite
        (claim_resolve_distinct
          [List.replicate 40 97 ++ 32 :: List.replicate 40 98,
           List.replicate 40 97 ++ 32 :: List.replicate 40 98])
        (List.replicate 7 97) = List.replicate 7 98 := by
  constructor <;> rfl

/-- C9 (amended): `ShortHashMapper::rewrite` over a loaded commit-map
equals the scan that replaces each boundary-delimited 7-40 hex run
according to `claim_resolve_occ`: a run of length 7-39 resolves iff
exactly one commit-map line (counting duplicated lines separately) has
the lowercased run as a prefix of its old oid, and is replaced by the
same-length prefix of that line's lowercased new oid unless the target
is the null oid; a full 40-hex run is resolved by exact lookup, the
last binding of the old oid winning. -/
theorem c9_amended_rewrite (lines : List (List Nat)) (data : List Nat) :
    shmRewrite (shmLoad lines) data =
      spec_shm_rewrite (claim_resolve_occ lines) data := by
  rw [shmRewrite, spec_shm_rewrite, shmGo_eq_specGo]
  exact specShmGo_congr _ _
    (fun r h7 => shmTranslate_eq_claim lines r h7) data.length none data

/-! ### C7: streaming vs whole-buffer replacement -/

theorem foldl_max_le_init (g : (List Nat × List Nat) → Nat) :
    ∀ (l : List (List Nat × List Nat)) (a : Nat),
      a ≤ l.foldl (fun m pr => max m (g pr)) a := by
  intro l
  induction l with
  | nil => intro a; simp
  | cons q rest ih =>
    intro a
    simp only [List.foldl_cons]
    exact le_trans (le_max_left a (g q)) (ih (max a (g q)))

theorem maxPatLen_ge (pats : List (List Nat × List Nat)) :
    ∀ pr ∈ pats, pr.1.length ≤ maxPatLen pats := by
  rw [maxPatLen]
  generalize (0 : Nat) = a
  induction pats generalizing a with
  | nil => intro pr h; simp at h
  | cons q rest ih =>
    intro pr h
    rw [List.mem_cons] at h
    rcases h with h | h
    · simp only [List.foldl_cons]
      subst h
      exact le_trans (le_max_right a pr.1.length)
        (foldl_max_le_init (fun pr => pr.1.length) rest _)
    · exact ih _ pr h

theorem occursAt_append_left (p b f : List Nat) (s : Nat)
    (h : s + p.length ≤ b.length) :
    occursAt p (b ++ f) s = occursAt p b s := by
  simp only [occursAt]
  rw [List.drop_append_of_le_length (by omega),
    List.take_append_of_le_length (by simp [List.length_drop]; omega)]

theorem occursAt_drop (p t : List Nat) (k s : Nat) :
    occursAt p (t.drop k) s = occursAt p t (k + s) := by
  simp only [occursAt, List.drop_drop]

theorem candsAtEnd_append_left (pats : List (List Nat × List Nat))
    (b f : List Nat) (e : Nat) (he : e ≤ b.length) :
    candsAtEnd pats (b ++ f) e = candsAtEnd pats b e := by
  simp only [candsAtEnd]
  apply List.filterMap_congr
  intro ji _
  by_cases hle : ji.2.1.length ≤ e
  · rw [occursAt_append_left _ _ _ _ (by omega)]
  · rw [if_neg (by intro hc; exact hle hc.1),
      if_neg (by intro hc; exact hle hc.1)]

theorem cands_empty_beyond (pats : List (List Nat × List Nat))
    (hne : ∀ pr ∈ pats, pr.1 ≠ []) (t : List Nat) (e : Nat)
    (he : t.length < e) : candsAtEnd pats t e = [] := by
  simp only [candsAtEnd]
  rw [List.filterMap_eq_nil_iff]
  intro ji hj
  obtain ⟨i, x⟩ := ji
  rw [if_neg]
  intro hc
  obtain ⟨hi, hx⟩ := List.mem_enum hj
  have hxne : x.1 ≠ [] := by
    rw [hx]
    exact hne _ (List.getElem_mem hi)
  obtain ⟨h1, h2⟩ := hc
  have h3 := of_decide_eq_true h2
  have h4 := congrArg List.length h3
  simp only [List.length_take, List.length_drop] at h4
  have h5 : x.1.length ≠ 0 := fun hz =>
    hxne (List.eq_nil_of_length_eq_zero hz)
  omega

theorem pickMinStart_eq_foldl (l : List (Nat × Nat)) :
    pickMinStart l = l.foldl pickStep none := rfl

theorem pickStep_some_ne :
    ∀ (l : List (Nat × Nat)) (a : Nat × Nat),
      l.foldl pickStep (some a) ≠ none := by
  intro l
  induction l with
  | nil => intro a h; exact absurd h (by simp)
  | cons q rest ih =>
    intro a
    rw [List.foldl_cons]
    simp only [pickStep]
    by_cases hq : q.1 < a.1
    · rw [if_pos hq]; exact ih q
    · rw [if_neg hq]; exact ih a

theorem pickMinStart_eq_none (l : List (Nat × Nat))
    (h : pickMinStart l = none) : l = [] := by
  cases l with
  | nil => rfl
  | cons c rest =>
    exfalso
    rw [pickMinStart_eq_foldl, List.foldl_cons] at h
    exact pickStep_some_ne rest c h

theorem pickMinStart_go_mem :
    ∀ (l : List (Nat × Nat)) (acc : Option (Nat × Nat)) (a : Nat × Nat),
      l.foldl pickStep acc = some a → a ∈ l ∨ acc = some a := by
  intro l
  induction l with
  | nil => intro acc a h; exact Or.inr h
  | cons c rest ih =>
    intro acc a h
    rw [List.foldl_cons] at h
    rcases ih _ a h with h1 | h1
    · exact Or.inl (List.mem_cons_of_mem _ h1)
    · cases acc with
      | none =>
        rw [show pickStep none c = some c from rfl] at h1
        injection h1 with h1
        exact Or.inl (h1 ▸ List.mem_cons_self _ _)
      | some b =>
        rw [show pickStep (some b) c =
            if c.1 < b.1 then some c else some b from rfl] at h1
        by_cases hc : c.1 < b.1
        · rw [if_pos hc] at h1
          injection h1 with h1
          exact Or.inl (h1 ▸ List.mem_cons_self _ _)
        · rw [if_neg hc] at h1
          exact Or.inr h1

theorem pickMinStart_mem (l : List (Nat × Nat)) (a : Nat × Nat)
    (h : pickMinStart l = some a) : a ∈ l := by
  rw [pickMinStart_eq_foldl] at h
  rcases pickMinStart_go_mem l none a h with h1 | h1
  · exact h1
  · exact absurd h1 (by simp)

theorem pickMinStart_go_shift (k : Nat) :
    ∀ (l : List (Nat × Nat)) (acc : Option (Nat × Nat)),
      (l.map fun c => (c.1 + k, c.2)).foldl pickStep
        (acc.map fun c => (c.1 + k, c.2)) =
      (l.foldl pickStep acc).map fun c => (c.1 + k, c.2) := by
  intro l
  induction l with
  | nil => intro acc; rfl
  | cons c rest ih =>
    intro acc
    rw [List.map_cons, List.foldl_cons, List.foldl_cons]
    cases acc with
    | none => exact ih (some c)
    | some a =>
      rw [show Option.map (fun c => (c.1 + k, c.2)) (some a) =
          some (a.1 + k, a.2) from rfl,
        show pickStep (some (a.1 + k, a.2)) ((fun c => (c.1 + k, c.2)) c) =
          if c.1 + k < a.1 + k then some (c.1 + k, c.2)
          else some (a.1 + k, a.2) from rfl,
        show pickStep (some a) c =
          if c.1 < a.1 then some c else some a from rfl]
      by_cases hc : c.1 < a.1
      · rw [if_pos (Nat.add_lt_add_right hc k), if_pos hc]
        exact ih (some c)
      · rw [if_neg (fun h => hc (Nat.lt_of_add_lt_add_right h)),
          if_neg hc]
        exact ih (some a)

theorem pickMinStart_map_shift (k : Nat) (l : List (Nat × Nat)) :
    pickMinStart (l.map fun c => (c.1 + k, c.2)) =
      (pickMinStart l).map fun c => (c.1 + k, c.2) := by
  rw [pickMinStart_eq_foldl, pickMinStart_eq_foldl]
  have := pickMinStart_go_shift k l none
  simpa using this

theorem acNextGo_none_pick (pats : List (List Nat × List Nat))
    (t : List Nat) :
    ∀ (fuel e : Nat), acNextGo pats t fuel e = none →
      ∀ i < fuel, pickMinStart (candsAtEnd pats t (e + i)) = none := by
  intro fuel
  induction fuel with
  | zero => intro e h i hi; exact absurd hi (by omega)
  | succ n ih =>
    intro e h i hi
    simp only [acNextGo] at h
    cases hp : pickMinStart (candsAtEnd pats t e) with
    | some m => rw [hp] at h; exact absurd h (by simp)
    | none =>
      rw [hp] at h
      match i with
      | 0 => simpa using hp
      | i + 1 =>
        have hr := ih (e + 1) h i (by omega)
        rw [show e + 1 + i = e + (i + 1) by omega] at hr
        exact hr

theorem acNextGo_all_none (pats : List (List Nat × List Nat))
    (t : List Nat) :
    ∀ (fuel e : Nat),
      (∀ i < fuel, pickMinStart (candsAtEnd pats t (e + i)) = none) →
      acNextGo pats t fuel e = none := by
  intro fuel
  induction fuel with
  | zero => intro e _; rfl
  | succ n ih =>
    intro e h
    simp only [acNextGo]
    have h0 : pickMinStart (candsAtEnd pats t e) = none := by
      simpa using h 0 (by omega)
    rw [h0]
    exact ih (e + 1) fun i hi => by
      have hr := h (i + 1) (by omega)
      rwa [show e + (i + 1) = e + 1 + i by omega] at hr

theorem acNextGo_some_spec (pats : List (List Nat × List Nat))
    (t : List Nat) :
    ∀ (fuel e : Nat) (m : Nat × Nat), acNextGo pats t fuel e = some m →
      ∃ i, i < fuel ∧
        pickMinStart (candsAtEnd pats t (e + i)) = some m ∧
        ∀ i' < i, pickMinStart (candsAtEnd pats t (e + i')) = none := by
  intro fuel
  induction fuel with
  | zero => intro e m h; exact absurd h (by simp [acNextGo])
  | succ n ih =>
    intro e m h
    simp only [acNextGo] at h
    cases hp : pickMinStart (candsAtEnd pats t e) with
    | some m' =>
      rw [hp] at h
      injection h with h
      refine ⟨0, by omega, by simpa [h] using hp,
        fun i' hi' => absurd hi' (by omega)⟩
    | none =>
      rw [hp] at h
      obtain ⟨i, hi, hpick, hprev⟩ := ih (e + 1) m h
      refine ⟨i + 1, by omega, ?_, ?_⟩
      · rwa [show e + (i + 1) = e + 1 + i by omega]
      · intro i' hi'
        match i' with
        | 0 => simpa using hp
        | i' + 1 =>
          have hr := hprev i' (by omega)
          rwa [show e + 1 + i' = e + (i' + 1) by omega] at hr

theorem acNextGo_of_first (pats : List (List Nat × List Nat))
    (t : List Nat) :
    ∀ (fuel e i : Nat) (m : Nat × Nat), i < fuel →
      pickMinStart (candsAtEnd pats t (e + i)) = some m →
      (∀ i' < i, pickMinStart (candsAtEnd pats t (e + i')) = none) →
      acNextGo pats t fuel e = some m := by
  intro fuel
  induction fuel with
  | zero => intro e i m hi; exact absurd hi (by omega)
  | succ n ih =>
    intro e i m hi hpick hprev
    simp only [acNextGo]
    match i with
    | 0 =>
      have h0 : pickMinStart (candsAtEnd pats t e) = some m := by
        simpa using hpick
      rw [h0]
    | i + 1 =>
      have h0 : pickMinStart (candsAtEnd pats t e) = none := by
        simpa using hprev 0 (by omega)
      rw [h0]
      refine ih (e + 1) i m (by omega) ?_ ?_
      · rwa [show e + 1 + i = e + (i + 1) by omega]
      · intro i' hi'
        have hr := hprev (i' + 1) (by omega)
        rwa [show e + (i' + 1) = e + 1 + i' by omega] at hr

theorem acNextMatch_none_pick (pats : List (List Nat × List Nat))
    (hne : ∀ pr ∈ pats, pr.1 ≠ []) (t : List Nat)
    (h : acNextMatch pats t = none) :
    ∀ e, pickMinStart (candsAtEnd pats t e) = none := by
  intro e
  by_cases he : e ≤ t.length
  · have hr := acNextGo_none_pick pats t (t.length + 1) 0 h e (by omega)
    simpa using hr
  · rw [cands_empty_beyond pats hne t e (by omega)]
    rfl

theorem next_append_of_some (pats : List (List Nat × List Nat))
    (b f : List Nat) (m : Nat × Nat) (h : acNextMatch pats b = some m) :
    acNextMatch pats (b ++ f) = some m := by
  obtain ⟨i, hi, hpick, hprev⟩ :=
    acNextGo_some_spec pats b (b.length + 1) 0 m h
  apply acNextGo_of_first pats (b ++ f) ((b ++ f).length + 1) 0 i m
  · simp only [List.length_append]
    omega
  · rw [candsAtEnd_append_left pats b f (0 + i) (by omega)]
    exact hpick
  · intro i' hi'
    rw [candsAtEnd_append_left pats b f (0 + i') (by omega)]
    exact hprev i' hi'

theorem next_nil (pats : List (List Nat × List Nat))
    (hne : ∀ pr ∈ pats, pr.1 ≠ []) : acNextMatch pats [] = none := by
  apply acNextGo_all_none
  intro i hi
  have hi0 : i = 0 := by simpa using hi
  subst hi0
  have h0 : candsAtEnd pats [] (0 + 0) = [] := by
    simp only [candsAtEnd]
    rw [List.filterMap_eq_nil_iff]
    intro ji hj
    obtain ⟨a, x⟩ := ji
    obtain ⟨hlt, hx⟩ := List.mem_enum hj
    rw [if_neg]
    intro hc
    have hxne : x.1 ≠ [] := by
      rw [hx]; exact hne _ (List.getElem_mem hlt)
    have hz : x.1.length = 0 := Nat.le_zero.mp (by simpa using hc.1)
    exact hxne (List.eq_nil_of_length_eq_zero hz)
  rw [h0]
  rfl

theorem next_some_spec (pats : List (List Nat × List Nat))
    (hne : ∀ pr ∈ pats, pr.1 ≠ []) (t : List Nat) (s j : Nat)
    (h : acNextMatch pats t = some (s, j)) :
    j < pats.length ∧
    occursAt (pats.getD j ([], [])).1 t s = true ∧
    1 ≤ (pats.getD j ([], [])).1.length ∧
    s + (pats.getD j ([], [])).1.length ≤ t.length := by
  obtain ⟨i, hi, hpick, hprev⟩ :=
    acNextGo_some_spec pats t (t.length + 1) 0 (s, j) h
  have hmem := pickMinStart_mem _ _ hpick
  simp only [candsAtEnd] at hmem
  rw [List.mem_filterMap] at hmem
  obtain ⟨ji, hjm, hjeq⟩ := hmem
  obtain ⟨a, x⟩ := ji
  obtain ⟨hlt, hx⟩ := List.mem_enum hjm
  by_cases hc : x.1.length ≤ 0 + i ∧
      occursAt x.1 t (0 + i - x.1.length) = true
  · rw [if_pos hc] at hjeq
    injection hjeq with hjeq
    have hs : 0 + i - x.1.length = s := congrArg Prod.fst hjeq
    have hj : a = j := congrArg Prod.snd hjeq
    subst hj
    have hg : pats.getD a ([], []) = x := by
      rw [List.getD_eq_getElem?_getD, List.getElem?_eq_getElem hlt]
      simp [hx]
    have hx1 : x.1 ≠ [] := by
      rw [hx]; exact hne _ (List.getElem_mem hlt)
    refine ⟨hlt, ?_, ?_, ?_⟩
    · rw [hg, ← hs]
      exact hc.2
    · rw [hg]
      have : x.1.length ≠ 0 := fun hz =>
        hx1 (List.eq_nil_of_length_eq_zero hz)
      omega
    · rw [hg, ← hs]
      have := hc.1
      omega
  · rw [if_neg hc] at hjeq
    exact absurd hjeq (by simp)

theorem replaceGo_fuel (pats : List (List Nat × List Nat))
    (hne : ∀ pr ∈ pats, pr.1 ≠ []) :
    ∀ (n : Nat) (t : List Nat) (m : Nat), t.length < n → t.length < m →
      acReplaceGo pats n t = acReplaceGo pats m t := by
  intro n
  induction n with
  | zero => intro t m hn _; exact absurd hn (by omega)
  | succ n ih =>
    intro t m hn hm
    match m, hm with
    | m + 1, hm =>
      cases hx : acNextMatch pats t with
      | none => simp only [acReplaceGo, hx]
      | some sj =>
        obtain ⟨s, j⟩ := sj
        obtain ⟨hjlt, hocc, hlen1, hend⟩ := next_some_spec pats hne t s j hx
        simp only [acReplaceGo, hx]
        rw [ih (t.drop (s + (pats.getD j ([], [])).1.length)) m
          (by simp only [List.length_drop]; omega)
          (by simp only [List.length_drop]; omega)]

theorem drainGo_parts (pats : List (List Nat × List Nat)) :
    ∀ (fuel : Nat) (t : List Nat),
      acReplaceGo pats fuel t =
        (acDrainGo pats fuel t).1 ++ (acDrainGo pats fuel t).2 := by
  intro fuel
  induction fuel with
  | zero => intro t; rfl
  | succ n ih =>
    intro t
    cases hx : acNextMatch pats t with
    | none => simp only [acReplaceGo, acDrainGo, hx]; rfl
    | some sj =>
      obtain ⟨s, j⟩ := sj
      simp only [acReplaceGo, acDrainGo, hx]
      rw [ih]
      rcases hd : acDrainGo pats n
          (t.drop (s + (pats.getD j ([], [])).1.length)) with ⟨o, r⟩
      simp [List.append_assoc]

theorem drainGo_rest_matchless (pats : List (List Nat × List Nat))
    (hne : ∀ pr ∈ pats, pr.1 ≠ []) :
    ∀ (fuel : Nat) (t : List Nat), t.length < fuel →
      acNextMatch pats (acDrainGo pats fuel t).2 = none := by
  intro fuel
  induction fuel with
  | zero => intro t hn; exact absurd hn (by omega)
  | succ n ih =>
    intro t hn
    cases hx : acNextMatch pats t with
    | none => simp only [acDrainGo, hx]
    | some sj =>
      obtain ⟨s, j⟩ := sj
      obtain ⟨hjlt, hocc, hlen1, hend⟩ := next_some_spec pats hne t s j hx
      simp only [acDrainGo, hx]
      rcases hd : acDrainGo pats n
          (t.drop (s + (pats.getD j ([], [])).1.length)) with ⟨o, r⟩
      have hr := ih (t.drop (s + (pats.getD j ([], [])).1.length))
        (by simp only [List.length_drop]; omega)
      rw [hd] at hr
      exact hr

theorem replaceAll_of_matchless (pats : List (List Nat × List Nat))
    (t : List Nat) (h : acNextMatch pats t = none) :
    acReplaceAll pats t = t := by
  rw [show acReplaceAll pats t = acReplaceGo pats (t.length + 1) t
    from rfl]
  simp only [acReplaceGo, h]

theorem mrApply_eq_replaceAll (pats : List (List Nat × List Nat))
    (data : List Nat) : mrApply pats data = acReplaceAll pats data := by
  cases hx : acNextMatch pats data with
  | none =>
    simp only [mrApply, hx]
    exact (replaceAll_of_matchless pats data hx).symm
  | some m => simp only [mrApply, hx]

theorem replaceAll_drain (pats : List (List Nat × List Nat))
    (hne : ∀ pr ∈ pats, pr.1 ≠ []) :
    ∀ (fuel : Nat) (b f : List Nat), b.length < fuel →
      acReplaceAll pats (b ++ f) =
        (acDrainGo pats fuel b).1 ++
          acReplaceAll pats ((acDrainGo pats fuel b).2 ++ f) := by
  intro fuel
  induction fuel with
  | zero => intro b f hb; exact absurd hb (by omega)
  | succ n ih =>
    intro b f hb
    cases hx : acNextMatch pats b with
    | none => simp only [acDrainGo, hx]; simp
    | some sj =>
      obtain ⟨s, j⟩ := sj
      obtain ⟨hjlt, hocc, hlen1, hend⟩ := next_some_spec pats hne b s j hx
      have hx2 := next_append_of_some pats b f (s, j) hx
      simp only [acDrainGo, hx]
      rcases hd : acDrainGo pats n
          (b.drop (s + (pats.getD j ([], [])).1.length)) with ⟨o, r⟩
      rw [show acReplaceAll pats (b ++ f) =
          acReplaceGo pats ((b ++ f).length + 1) (b ++ f) from rfl]
      simp only [acReplaceGo, hx2]
      rw [List.take_append_of_le_length (by omega),
        List.drop_append_of_le_length (by omega)]
      rw [replaceGo_fuel pats hne ((b ++ f).length)
        (b.drop (s + (pats.getD j ([], [])).1.length) ++ f)
        ((b.drop (s + (pats.getD j ([], [])).1.length) ++ f).length + 1)
        (by simp only [List.length_append, List.length_drop]; omega)
        (by omega)]
      rw [show acReplaceGo pats
          ((b.drop (s + (pats.getD j ([], [])).1.length) ++ f).length + 1)
          (b.drop (s + (pats.getD j ([], [])).1.length) ++ f) =
        acReplaceAll pats
          (b.drop (s + (pats.getD j ([], [])).1.length) ++ f) from rfl]
      rw [ih (b.drop (s + (pats.getD j ([], [])).1.length)) f
        (by simp only [List.length_drop]; omega), hd]
      simp [List.append_assoc]

theorem cands_mem_spec (pats : List (List Nat × List Nat)) (t : List Nat)
    (e : Nat) (c : Nat × Nat) (h : c ∈ candsAtEnd pats t e) :
    c.2 < pats.length ∧
    (pats.getD c.2 ([], [])).1.length ≤ e ∧
    c.1 = e - (pats.getD c.2 ([], [])).1.length ∧
    occursAt (pats.getD c.2 ([], [])).1 t c.1 = true := by
  simp only [candsAtEnd] at h
  rw [List.mem_filterMap] at h
  obtain ⟨ji, hjm, hjeq⟩ := h
  obtain ⟨a, x⟩ := ji
  obtain ⟨hlt, hx⟩ := List.mem_enum hjm
  by_cases hc : x.1.length ≤ e ∧ occursAt x.1 t (e - x.1.length) = true
  · rw [if_pos hc] at hjeq
    injection hjeq with hjeq
    have h1 : e - x.1.length = c.1 := congrArg Prod.fst hjeq
    have h2 : a = c.2 := congrArg Prod.snd hjeq
    have hg : pats.getD c.2 ([], []) = x := by
      rw [← h2, List.getD_eq_getElem?_getD, List.getElem?_eq_getElem hlt]
      simp [hx]
    rw [hg]
    exact ⟨h2 ▸ hlt, hc.1, h1.symm, h1 ▸ hc.2⟩
  · rw [if_neg hc] at hjeq
    exact absurd hjeq (by simp)

theorem cands_mem_intro (pats : List (List Nat × List Nat)) (t : List Nat)
    (e j : Nat) (hj : j < pats.length)
    (hlen : (pats.getD j ([], [])).1.length ≤ e)
    (hocc : occursAt (pats.getD j ([], [])).1 t
      (e - (pats.getD j ([], [])).1.length) = true) :
    (e - (pats.getD j ([], [])).1.length, j) ∈ candsAtEnd pats t e := by
  simp only [candsAtEnd]
  rw [List.mem_filterMap]
  refine ⟨(j, pats[j]), ?_, ?_⟩
  · rw [List.mem_enum_iff_getElem?]
    exact List.getElem?_eq_getElem hj
  · have hg : pats.getD j ([], []) = pats[j] := by
      rw [List.getD_eq_getElem?_getD, List.getElem?_eq_getElem hj]
      rfl
    rw [← hg]
    rw [if_pos ⟨hlen, hocc⟩]

theorem cands_shift (pats : List (List Nat × List Nat)) (t : List Nat)
    (k : Nat)
    (Hp : ∀ j < pats.length, ∀ s',
      occursAt (pats.getD j ([], [])).1 t s' = true → k ≤ s')
    (e' : Nat) :
    candsAtEnd pats t (k + e') =
      (candsAtEnd pats (t.drop k) e').map fun c => (c.1 + k, c.2) := by
  simp only [candsAtEnd]
  rw [List.map_filterMap]
  apply List.filterMap_congr
  intro ji hjm
  obtain ⟨a, x⟩ := ji
  obtain ⟨hlt, hx⟩ := List.mem_enum hjm
  have hg : pats.getD a ([], []) = x := by
    rw [List.getD_eq_getElem?_getD, List.getElem?_eq_getElem hlt]
    simp [hx]
  by_cases hc2 : x.1.length ≤ e' ∧
      occursAt x.1 (t.drop k) (e' - x.1.length) = true
  · rw [if_pos hc2, if_pos (⟨by omega, by
      have hr := hc2.2
      rw [occursAt_drop] at hr
      rw [show k + e' - x.1.length = k + (e' - x.1.length) by omega]
      exact hr⟩ : x.1.length ≤ k + e' ∧
        occursAt x.1 t (k + e' - x.1.length) = true)]
    have : e' - x.1.length + k = k + e' - x.1.length := by omega
    rw [show Option.map (fun c : Nat × Nat => (c.1 + k, c.2))
        (some (e' - x.1.length, a)) =
        some (e' - x.1.length + k, a) from rfl, this]
  · rw [if_neg hc2, if_neg]
    · rfl
    · intro hcL
      apply hc2
      have hc1 : x.1.length ≤ k + e' := hcL.1
      have hocc' : occursAt x.1 t (k + e' - x.1.length) = true := hcL.2
      have hs' := Hp a hlt (k + e' - x.1.length) (by rw [hg]; exact hocc')
      have hlen' : x.1.length ≤ e' := by omega
      refine ⟨hlen', ?_⟩
      rw [occursAt_drop, show k + (e' - x.1.length) = k + e' - x.1.length
        by omega]
      exact hocc'

theorem cands_low_empty (pats : List (List Nat × List Nat)) (t : List Nat)
    (k : Nat)
    (Hp : ∀ j < pats.length, ∀ s',
      occursAt (pats.getD j ([], [])).1 t s' = true → k ≤ s')
    (e : Nat) (he : e < k) : candsAtEnd pats t e = [] := by
  rcases hl : candsAtEnd pats t e with _ | ⟨c, rest⟩
  · rfl
  · exfalso
    have hcm : c ∈ candsAtEnd pats t e := by rw [hl]; simp
    obtain ⟨h1, h2, h3, h4⟩ := cands_mem_spec pats t e c hcm
    have := Hp c.2 h1 c.1 h4
    omega

theorem acNextMatch_shift (pats : List (List Nat × List Nat))
    (hne : ∀ pr ∈ pats, pr.1 ≠ []) (t : List Nat) (k : Nat)
    (hk : k ≤ t.length)
    (Hp : ∀ j < pats.length, ∀ s',
      occursAt (pats.getD j ([], [])).1 t s' = true → k ≤ s') :
    acNextMatch pats t =
      (acNextMatch pats (t.drop k)).map fun c => (c.1 + k, c.2) := by
  have hlow : ∀ e < k, pickMinStart (candsAtEnd pats t e) = none := by
    intro e he
    rw [cands_low_empty pats t k Hp e he]
    rfl
  cases hd : acNextMatch pats (t.drop k) with
  | none =>
    rw [show Option.map (fun c : Nat × Nat => (c.1 + k, c.2)) none = none
      from rfl]
    apply acNextGo_all_none
    intro i hi
    by_cases hik : i < k
    · rw [Nat.zero_add]
      exact hlow i hik
    · rw [Nat.zero_add, show i = k + (i - k) by omega,
        cands_shift pats t k Hp (i - k), pickMinStart_map_shift]
      rw [acNextMatch_none_pick pats hne (t.drop k) hd (i - k)]
      rfl
  | some c =>
    obtain ⟨s', j⟩ := c
    rw [show Option.map (fun c : Nat × Nat => (c.1 + k, c.2))
        (some (s', j)) = some (s' + k, j) from rfl]
    obtain ⟨i, hi, hpick, hprev⟩ :=
      acNextGo_some_spec pats (t.drop k) ((t.drop k).length + 1) 0
        (s', j) hd
    rw [Nat.zero_add] at hpick
    apply acNextGo_of_first pats t (t.length + 1) 0 (k + i) (s' + k, j)
    · simp only [List.length_drop] at hi
      omega
    · rw [Nat.zero_add, cands_shift pats t k Hp i, pickMinStart_map_shift,
        hpick]
      rfl
    · intro i' hi'
      rw [Nat.zero_add]
      by_cases hik : i' < k
      · exact hlow i' hik
      · rw [show i' = k + (i' - k) by omega,
          cands_shift pats t k Hp (i' - k), pickMinStart_map_shift]
        have hr := hprev (i' - k) (by omega)
        rw [Nat.zero_add] at hr
        rw [hr]
        rfl

theorem replaceAll_skip (pats : List (List Nat × List Nat))
    (hne : ∀ pr ∈ pats, pr.1 ≠ []) (t : List Nat) (k : Nat)
    (hk : k ≤ t.length)
    (Hp : ∀ j < pats.length, ∀ s',
      occursAt (pats.getD j ([], [])).1 t s' = true → k ≤ s') :
    acReplaceAll pats t = t.take k ++ acReplaceAll pats (t.drop k) := by
  have hshift := acNextMatch_shift pats hne t k hk Hp
  cases hd : acNextMatch pats (t.drop k) with
  | none =>
    rw [hd] at hshift
    rw [show Option.map (fun c : Nat × Nat => (c.1 + k, c.2)) none = none
      from rfl] at hshift
    rw [replaceAll_of_matchless pats t hshift,
      replaceAll_of_matchless pats (t.drop k) hd,
      List.take_append_drop]
  | some c =>
    obtain ⟨s', j⟩ := c
    rw [hd] at hshift
    rw [show Option.map (fun c : Nat × Nat => (c.1 + k, c.2))
        (some (s', j)) = some (s' + k, j) from rfl] at hshift
    obtain ⟨hjlt, hocc, hlen1, hend⟩ :=
      next_some_spec pats hne (t.drop k) s' j hd
    simp only [List.length_drop] at hend
    rw [show acReplaceAll pats t = acReplaceGo pats (t.length + 1) t
      from rfl]
    simp only [acReplaceGo, hshift]
    rw [show acReplaceAll pats (t.drop k) =
      acReplaceGo pats ((t.drop k).length + 1) (t.drop k) from rfl]
    simp only [acReplaceGo, hd]
    rw [show s' + k = k + s' by omega, List.take_add]
    rw [List.drop_drop]
    rw [show k + s' + (pats.getD j ([], [])).1.length =
      k + (s' + (pats.getD j ([], [])).1.length) by omega]
    rw [replaceGo_fuel pats hne t.length
      (t.drop (k + (s' + (pats.getD j ([], [])).1.length)))
      ((t.drop k).length)
      (by simp only [List.length_drop]; omega)
      (by simp only [List.length_drop]; omega)]
    simp [List.append_assoc]

theorem skip_bound_of_matchless (pats : List (List Nat × List Nat))
    (hne : ∀ pr ∈ pats, pr.1 ≠ []) (r f : List Nat)
    (hrm : acNextMatch pats r = none) :
    ∀ j < pats.length, ∀ s',
      occursAt (pats.getD j ([], [])).1 (r ++ f) s' = true →
      r.length + 1 ≤ s' + (pats.getD j ([], [])).1.length := by
  intro j hj s' hocc
  by_contra hcon
  have hle : s' + (pats.getD j ([], [])).1.length ≤ r.length := by omega
  rw [occursAt_append_left _ _ _ _ hle] at hocc
  have hmem := cands_mem_intro pats r
    (s' + (pats.getD j ([], [])).1.length) j hj (by omega)
    (by rw [show s' + (pats.getD j ([], [])).1.length -
        (pats.getD j ([], [])).1.length = s' by omega]
        exact hocc)
  rw [show s' + (pats.getD j ([], [])).1.length -
    (pats.getD j ([], [])).1.length = s' by omega] at hmem
  have hp := acNextMatch_none_pick pats hne r hrm
    (s' + (pats.getD j ([], [])).1.length)
  have := pickMinStart_eq_none _ hp
  rw [this] at hmem
  simp at hmem

theorem matchless_drop (pats : List (List Nat × List Nat))
    (hne : ∀ pr ∈ pats, pr.1 ≠ []) (r : List Nat)
    (hrm : acNextMatch pats r = none) (d : Nat) :
    acNextMatch pats (r.drop d) = none := by
  apply acNextGo_all_none
  intro i hi
  have hemp : candsAtEnd pats (r.drop d) (0 + i) = [] := by
    rcases hl : candsAtEnd pats (r.drop d) (0 + i) with _ | ⟨c, rest⟩
    · rfl
    · exfalso
      have hcm : c ∈ candsAtEnd pats (r.drop d) (0 + i) := by
        rw [hl]; simp
      obtain ⟨h1, h2, h3, h4⟩ := cands_mem_spec _ _ _ _ hcm
      rw [occursAt_drop] at h4
      simp only [List.length_drop] at hi
      have hmem := cands_mem_intro pats r
        (d + c.1 + (pats.getD c.2 ([], [])).1.length) c.2 h1 (by omega)
        (by
          rw [show d + c.1 + (pats.getD c.2 ([], [])).1.length -
            (pats.getD c.2 ([], [])).1.length = d + c.1 by omega]
          exact h4)
      rw [show d + c.1 + (pats.getD c.2 ([], [])).1.length -
        (pats.getD c.2 ([], [])).1.length = d + c.1 by omega] at hmem
      have hp := acNextMatch_none_pick pats hne r hrm
        (d + c.1 + (pats.getD c.2 ([], [])).1.length)
      rw [pickMinStart_eq_none _ hp] at hmem
      simp at hmem
  rw [hemp]
  rfl

theorem foldl_stream_inv (pats : List (List Nat × List Nat))
    (hne : ∀ pr ∈ pats, pr.1 ≠ []) :
    ∀ (chunks : List (List Nat)) (st : List Nat × List Nat),
      acNextMatch pats st.2 = none →
      (chunks.foldl (streamStep pats) st).1 ++
        acReplaceAll pats (chunks.foldl (streamStep pats) st).2 =
        st.1 ++ acReplaceAll pats (st.2 ++ chunks.flatten) ∧
      acNextMatch pats (chunks.foldl (streamStep pats) st).2 = none := by
  intro chunks
  induction chunks with
  | nil =>
    intro st hst
    refine ⟨?_, hst⟩
    simp
  | cons c cs ih =>
    intro st hst
    rw [List.foldl_cons]
    rcases hdr : acDrain pats (st.2 ++ c) with ⟨o, r⟩
    have hstep : streamStep pats st c =
        (st.1 ++ o ++
          r.take (r.length - min r.length (maxPatLen pats - 1)),
         r.drop (r.length - min r.length (maxPatLen pats - 1))) := by
      simp only [streamStep, hdr]
    have hdr' : acDrainGo pats ((st.2 ++ c).length + 1) (st.2 ++ c) =
        (o, r) := hdr
    have hrm : acNextMatch pats r = none := by
      have hr := drainGo_rest_matchless pats hne
        ((st.2 ++ c).length + 1) (st.2 ++ c) (by omega)
      rw [hdr'] at hr
      exact hr
    have hpm : acNextMatch pats
        (r.drop (r.length - min r.length (maxPatLen pats - 1))) = none :=
      matchless_drop pats hne r hrm _
    obtain ⟨ih1, ih2⟩ := ih (streamStep pats st c) (by rw [hstep]; exact hpm)
    refine ⟨?_, ih2⟩
    rw [ih1, hstep]
    rw [List.flatten_cons,
      show st.2 ++ (c ++ cs.flatten) = (st.2 ++ c) ++ cs.flatten by
        simp [List.append_assoc]]
    have hdd := replaceAll_drain pats hne ((st.2 ++ c).length + 1)
      (st.2 ++ c) cs.flatten (by omega)
    rw [hdr'] at hdd
    rw [hdd]
    have hk1 : r.length - min r.length (maxPatLen pats - 1) ≤ r.length := by
      omega
    have hskip := replaceAll_skip pats hne (r ++ cs.flatten)
      (r.length - min r.length (maxPatLen pats - 1))
      (by simp only [List.length_append]; omega)
      (by
        intro j hj s' hocc
        have hb := skip_bound_of_matchless pats hne r cs.flatten hrm
          j hj s' hocc
        have hmax : (pats.getD j ([], [])).1.length ≤ maxPatLen pats := by
          apply maxPatLen_ge
          rw [List.getD_eq_getElem?_getD, List.getElem?_eq_getElem hj]
          exact List.getElem_mem hj
        omega)
    rw [List.take_append_of_le_length hk1,
      List.drop_append_of_le_length hk1] at hskip
    rw [hskip]
    simp [List.append_assoc]

/-- C7: for every chunked payload and literal rule set with non-empty
patterns, the streaming replacement (chunks pushed through the
automaton with a `maxPatLen - 1` look-behind kept across chunk
boundaries, flushed at end of input) produces byte-for-byte the output
of the whole-buffer replacement applied to the concatenated payload. -/
theorem c7_streaming_matches_whole (pats : List (List Nat × List Nat))
    (chunks : List (List Nat)) (hne : ∀ pr ∈ pats, pr.1 ≠ []) :
    mrApplyStreaming pats chunks = mrApply pats chunks.flatten := by
  rw [mrApply_eq_replaceAll]
  obtain ⟨h1, h2⟩ := foldl_stream_inv pats hne chunks ([], [])
    (next_nil pats hne)
  rw [replaceAll_of_matchless pats _ h2] at h1
  simp only [List.nil_append] at h1
  simpa [mrApplyStreaming] using h1

theorem c7_witness :
    mrApplyStreaming [(sBytes "secret", sBytes "REDACTED")]
        [sBytes "my se", sBytes "cret!"] =
      mrApply [(sBytes "secret", sBytes "REDACTED")]
        (List.flatten [sBytes "my se", sBytes "cret!"]) :=
  c7_streaming_matches_whole [(sBytes "secret", sBytes "REDACTED")]
    [sBytes "my se", sBytes "cret!"] (by decide)

end FRS
